import Mathlib

/-!
# Verification of the newfan_finance ingestion / retrieval pipeline

Shallow embedding of the core components of the repository:

* `lambda/prna-article-ingestor/dynamodb-writer.ts` and `article-processor.ts`
  (dedup writer and identity hashing),
* `scripts/backfill-s3-vectors.ts` (`flushVectorsBatch`, retry with backoff),
* `src/lib/search/s3VectorsSearchAgent.ts` (multi-query merge, rerank),
* `src/lib/aws/s3-vectors-search.ts` (`searchArticles`, hydration),
* `lambda/prna-vectors-ingestor/index.ts` and `text-processor.ts`
  (stream ingestor),
* `src/lib/cache/cache-service.ts` (two-tier cache).

JavaScript strings are modelled as Lean `String`/`List Char`; machine
numbers that only count (lengths, tallies) as `Nat`/`Int`; similarity
scores as `ℚ`.  External collaborators (DynamoDB, Redis, the embedding
provider, S3 Vectors) are modelled as explicit state or oracle
parameters, mirroring the per-key semantics the code relies on.
-/

namespace NewfanFinance

/-! ## Identity hasher (`article-processor.ts`)

`generateUrlHash` / `generateTitleHash` normalize and then SHA-256 the
input.  The normalizations are faithful char-level translations of the
regex pipelines.  `jsWhitespace` models the JavaScript `\s` class (and
`String.prototype.trim`'s whitespace) restricted to the characters that
can actually appear here; it includes U+3000 (IDEOGRAPHIC SPACE), which
is what `normalizeTitle`'s fullwidth-space rule targets. -/

def jsWhitespace (c : Char) : Bool :=
  c == ' ' || c == '\t' || c == '\n' || c == '\r' || c == '\x0b' ||
  c == '\x0c' || c == ' ' || c == '　'

/-- `String.prototype.trim()` on the underlying character list. -/
def trimChars (l : List Char) : List Char :=
  (((l.dropWhile jsWhitespace).reverse.dropWhile jsWhitespace)).reverse

/-- `.replace(/\/$/, '')`: drop a single trailing `'/'` if present. -/
def dropTrailingSlash (l : List Char) : List Char :=
  match l.reverse with
  | '/' :: rest => rest.reverse
  | _ => l

/-- `.split('?')[0]`: the prefix before the first `'?'`. -/
def stripQuery (l : List Char) : List Char :=
  l.takeWhile (fun c => c != '?')

/-- `url.trim().replace(/\/$/, '').split('?')[0]` (from `generateUrlHash`). -/
def normalizeUrl (s : String) : String :=
  ⟨stripQuery (dropTrailingSlash (trimChars s.data))⟩

/-- `.replace(/　/g, ' ')`: fullwidth space to halfwidth. -/
def fullwidthToSpace (c : Char) : Char :=
  if c == '　' then ' ' else c

/-- `.replace(/\s+/g, ' ')`: collapse every maximal whitespace run to one
space. -/
def collapseWs : List Char → List Char
  | [] => []
  | c :: rest =>
    if jsWhitespace c then ' ' :: collapseWs (rest.dropWhile jsWhitespace)
    else c :: collapseWs rest
termination_by l => l.length
decreasing_by
  · simp only [List.length_cons]
    exact Nat.lt_succ_of_le (List.dropWhile_sublist _).length_le
  · simp

/-- `title.trim().replace(/　/g,' ').replace(/\s+/g,' ').toLowerCase()`
(from `generateTitleHash`).  `toLowerCase` is modelled by `Char.toLower`
(basic-latin case folding). -/
def normalizeTitleChars (l : List Char) : List Char :=
  (collapseWs ((trimChars l).map fullwidthToSpace)).map Char.toLower

def normalizeTitle (s : String) : String :=
  ⟨normalizeTitleChars s.data⟩

/-- Stand-in for node `crypto`'s SHA-256 hex digest, which is an external
collaborator of the repository.  Modelled as a concrete deterministic
mixing function; every theorem below relies only on determinism (equal
inputs give equal digests), never on properties of the digest itself. -/
def sha256Hex (s : String) : String :=
  ⟨Nat.toDigits 16 (s.data.foldl (fun h c => (h * 131 + c.toNat) % (2 ^ 64)) 5381)⟩

/-- `generateUrlHash` from `article-processor.ts`. -/
def generateUrlHash (url : String) : String :=
  sha256Hex (normalizeUrl url)

/-- `generateTitleHash` from `article-processor.ts`. -/
def generateTitleHash (title : String) : String :=
  sha256Hex (normalizeTitle title)

/-! Auxiliary notions used to *state* the normalization properties
(these are part of the property language, not translations of code):
the decomposition of a title into its maximal whitespace-free words, and
their case-folded form. -/

/-- Maximal non-whitespace runs of a character list, in order. -/
def wordsWs : List Char → List (List Char)
  | [] => []
  | c :: rest =>
    if jsWhitespace c then wordsWs rest
    else (c :: rest.takeWhile (fun d => !jsWhitespace d)) ::
      wordsWs (rest.dropWhile (fun d => !jsWhitespace d))
termination_by l => l.length
decreasing_by
  · simp
  · simp only [List.length_cons]
    exact Nat.lt_succ_of_le (List.dropWhile_sublist _).length_le

/-- Join words with single spaces (the canonical collapsed form). -/
def joinSpace : List (List Char) → List Char
  | [] => []
  | [w] => w
  | w :: ws => w ++ ' ' :: joinSpace ws

/-- The case-folded word sequence of a title: two titles differ only by
letter case and by inter-word whitespace exactly when these agree. -/
def caseFoldWords (s : String) : List (List Char) :=
  (wordsWs (trimChars s.data)).map (List.map Char.toLower)

/-- `true` iff the string is nonempty and its last character satisfies
`p`. -/
def lastCharIs (p : Char → Bool) (s : String) : Bool :=
  match s.data.reverse with
  | [] => false
  | c :: _ => p c

/-! ## Dedup writer (`dynamodb-writer.ts`)

The DynamoDB table `prna-articles` (PK `url_hash`, GSI on `title_hash`)
is modelled as a list of records; the primary key makes `put` replace
the record with the same `url_hash`. -/

/-- `ProcessedArticle` from `article-processor.ts`. -/
structure ProcessedArticle where
  url_hash : String
  title_hash : String
  url : String
  title : String
  content : String
  thumbnail : String
  pubDate : String
  pubDateEpoch : Int
  author : String
  category : String
  s3Key : String
  createdAt : String
  updatedAt : String
  ttl : Int
deriving DecidableEq, Repr

abbrev ArticleTable := List ProcessedArticle

/-- `isDuplicate`: query the `title_hash-index` GSI; true iff some stored
record carries this title hash. -/
def isDuplicate (titleHash : String) (table : ArticleTable) : Bool :=
  table.any (fun r => r.title_hash == titleHash)

/-- DynamoDB `PutCommand`: store the item under its primary key
`url_hash`, replacing any record already stored under that key. -/
def putItem (a : ProcessedArticle) (table : ArticleTable) : ArticleTable :=
  table.filter (fun r => r.url_hash != a.url_hash) ++ [a]

inductive UpsertResult where
  | inserted
  | skipped_duplicate
deriving DecidableEq, Repr

/-- `upsertArticle`: check the title-hash GSI first; on a hit return
`skipped_duplicate` without writing, otherwise `put` keyed by
`url_hash`. -/
def upsertArticle (article : ProcessedArticle) (table : ArticleTable) :
    ArticleTable × UpsertResult :=
  if isDuplicate article.title_hash table then
    (table, .skipped_duplicate)
  else
    (putItem article table, .inserted)

/-- Number of stored records carrying a given title hash. -/
def countByTitleHash (titleHash : String) (table : ArticleTable) : Nat :=
  (table.filter (fun r => r.title_hash == titleHash)).length

/-- A fully explicit article for concrete witnesses. -/
def mkArticle (urlHash titleHash content : String) : ProcessedArticle :=
  { url_hash := urlHash, title_hash := titleHash, url := "", title := ""
    content := content, thumbnail := "", pubDate := "", pubDateEpoch := 0
    author := "", category := "", s3Key := "", createdAt := ""
    updatedAt := "", ttl := 0 }

/-! ## Vector records (shared by the ingestors and the backfill script) -/

/-- The compact S3 Vectors metadata (`text-processor.ts`). -/
structure VectorMetadata where
  category : String
  pub_date : String
  article_id : String
  title : String
  url : String
deriving DecidableEq, Repr

/-- `VectorInput` from `s3-vectors-client.ts`. -/
structure VectorInput where
  key : String
  embedding : List ℚ
  metadata : VectorMetadata
deriving DecidableEq, Repr

/-! ## Backfill reconciler (`scripts/backfill-s3-vectors.ts`) -/

/-- `BackfillStats` from the backfill script.  `totalSuccess` and
`totalError` are JavaScript numbers that get subtracted from, hence
`Int`. -/
structure BackfillStats where
  totalScanned : Nat
  totalSuccess : Int
  totalError : Int
  totalSkipped : Nat
  errors : List (String × String)
deriving DecidableEq, Repr

/-- `Math.min(2000 * Math.pow(2, attempt - 1), 30000)`: the backoff delay
(ms) slept after a failed attempt. -/
def backoffMs (attempt : Nat) : Nat :=
  min (2000 * 2 ^ (attempt - 1)) 30000

/-- The retry loop body of `flushVectorsBatch`, from `attempt` up to
`maxRetries`.  The external batch write `putVectorsBatchFn(vectors)` is
modelled by the oracle `putOk`: `putOk n = true` iff the call made on
attempt `n` succeeds.  Returns the updated stats and the number of batch
write calls performed. -/
def flushGo (putOk : Nat → Bool) (vectors : List VectorInput)
    (stats : BackfillStats) (maxRetries : Nat) (attempt : Nat) :
    BackfillStats × Nat :=
  if maxRetries < attempt then (stats, 0)
  else if putOk attempt then (stats, 1)
  else if attempt < maxRetries then
    let r := flushGo putOk vectors stats maxRetries (attempt + 1)
    (r.1, r.2 + 1)
  else
    ({ stats with
        totalError := stats.totalError + vectors.length
        totalSuccess := stats.totalSuccess - vectors.length
        errors := stats.errors ++
          vectors.map (fun v => (v.key, "S3 Vectors batch write failed")) }, 1)
termination_by maxRetries + 1 - attempt

/-- `flushVectorsBatch(vectors, putVectorsBatchFn, stats, maxRetries)`:
up to `maxRetries` attempts starting at attempt 1; on exhaustion the
batch is marked failed, `totalError` grows by the batch size and
`totalSuccess` shrinks by it. -/
def flushVectorsBatch (putOk : Nat → Bool) (vectors : List VectorInput)
    (stats : BackfillStats) (maxRetries : Nat) : BackfillStats × Nat :=
  flushGo putOk vectors stats maxRetries 1

/-! ## Multi-query search chain (`s3VectorsSearchAgent.ts`) -/

/-- A hydrated search document as the agent sees it (`Document` with the
metadata produced by `searchArticles`). -/
structure SearchDoc where
  pageContent : String
  article_id : String
  title : String
  url : String
  category : String
  pub_date : String
deriving DecidableEq, Repr

/-- `doc.metadata.article_id || doc.metadata.url` (empty string is
falsy). -/
def dedupKey (d : SearchDoc) : String :=
  if d.article_id != "" then d.article_id else d.url

/-- The inner merge loop: fold one sub-query's result list into the
`(seen, mergedDocs)` accumulator, keeping first occurrences. -/
def addDocs (acc : List String × List SearchDoc) (docs : List SearchDoc) :
    List String × List SearchDoc :=
  docs.foldl
    (fun acc d =>
      if acc.1.contains (dedupKey d) then acc
      else (acc.1 ++ [dedupKey d], acc.2 ++ [d]))
    acc

/-- The merge + dedup over all sub-query results, in query order
(`seen : Set`, `mergedDocs : Document[]` in the source). -/
def mergeSearchResults (searchResults : List (List SearchDoc)) :
    List SearchDoc :=
  (searchResults.foldl addDocs ([], [])).2

/-- `this.executeSearch(q, topK).catch(() => [])`: a failed sub-query
contributes an empty list. -/
def searchOrEmpty (search : String → Except String (List SearchDoc))
    (q : String) : List SearchDoc :=
  match search q with
  | .ok docs => docs
  | .error _ => []

/-- The body of `createMultiQuerySearchChain` after the three queries are
parsed: short-circuit on `not_needed`, keep nonempty queries, run all
searches (failures become empty), merge and dedup. -/
def multiQuerySearch (search : String → Except String (List SearchDoc))
    (q1 q2 q3 : String) : String × List SearchDoc :=
  if q1 = "not_needed" then ("", [])
  else
    let queries := [q1, q2, q3].filter (fun q => q != "")
    (q1, mergeSearchResults (queries.map (searchOrEmpty search)))

/-- Specification-side description of the merge: first occurrence of each
dedup key survives, in order. -/
def dedupFirstBy (key : SearchDoc → String) (seen : List String) :
    List SearchDoc → List SearchDoc
  | [] => []
  | d :: rest =>
    if seen.contains (key d) then dedupFirstBy key seen rest
    else d :: dedupFirstBy key (seen ++ [key d]) rest

/-! ## Reranker (`s3VectorsSearchAgent.ts`, `createAnsweringChain`) -/

inductive OptimizationMode where
  | speed
  | balanced
  | quality
deriving DecidableEq, Repr

/-- `getSearchParams`: `(topK, maxDocs)` per optimization mode (the
`default` arm of the source `switch` is unreachable for this
three-valued type). -/
def getSearchParams (mode : OptimizationMode) : Nat × Nat :=
  match mode with
  | .speed => (5, 5)
  | .balanced => (10, 10)
  | .quality => (15, 15)

/-- The rerank threshold: quality mode applies
`Math.max(rerankThreshold ?? 0.3, 0.2)`, other modes
`rerankThreshold ?? 0.3`. -/
def rerankThresholdFor (mode : OptimizationMode)
    (rerankThreshold : Option ℚ) : ℚ :=
  match mode with
  | .quality => max (rerankThreshold.getD 0.3) 0.2
  | _ => rerankThreshold.getD 0.3

/-- Stable insertion of one scored document into a descending list,
modelling `.sort((a, b) => b.similarity - a.similarity)`. -/
def insertDescBySim (x : SearchDoc × ℚ) :
    List (SearchDoc × ℚ) → List (SearchDoc × ℚ)
  | [] => [x]
  | y :: ys => if y.2 < x.2 then x :: y :: ys else y :: insertDescBySim x ys

/-- Sort scored documents by similarity, descending. -/
def sortBySimDesc : List (SearchDoc × ℚ) → List (SearchDoc × ℚ)
  | [] => []
  | x :: xs => insertDescBySim x (sortBySimDesc xs)

/-- The context-retrieval rerank step of `createAnsweringChain` after the
search-retriever chain returned `docs`.  `computeSimilarity` is the
imported `lib/utils/computeSimilarity` (not part of the sources under
verification; per the config `SIMILARITY_MEASURE: 'cosine'` it computes
cosine similarity) and `embedQuery`/`embedDocument` are the external
LangChain `Embeddings` provider, all passed as oracle parameters. -/
def rerankContext (computeSimilarity : List ℚ → List ℚ → ℚ)
    (embedDocument : String → List ℚ) (embedQuery : String → List ℚ)
    (rerankThreshold : Option ℚ) (mode : OptimizationMode)
    (query : String) (docs : List SearchDoc) : List SearchDoc :=
  if docs = [] then docs
  else
    match mode with
    | .speed => docs.take (getSearchParams .speed).2
    | _ =>
      let docsWithContent := docs.filter (fun d => d.pageContent != "")
      let queryEmbedding := embedQuery query
      let similarity := docsWithContent.map
        (fun d => (d, computeSimilarity queryEmbedding (embedDocument d.pageContent)))
      let threshold := rerankThresholdFor mode rerankThreshold
      ((sortBySimDesc (similarity.filter (fun s => threshold < s.2))).take
        (getSearchParams mode).2).map (fun s => s.1)

/-- The similarity score the reranker assigns to a document (a function
of the document's page content). -/
def docSimilarity (computeSimilarity : List ℚ → List ℚ → ℚ)
    (embedDocument : String → List ℚ) (embedQuery : String → List ℚ)
    (query : String) (d : SearchDoc) : ℚ :=
  computeSimilarity (embedQuery query) (embedDocument d.pageContent)

/-! ## HTML stripping (`text-processor.ts` / `s3-vectors-search.ts`)

Both files contain the identical `stripHtml` regex pipeline; it is
embedded once, as a character-level scanner. -/

/-- Case-insensitive character comparison (the `i` regex flag). -/
def charCI (a b : Char) : Bool := Char.toLower a == Char.toLower b

/-- Case-sensitive character comparison. -/
def charExact (a b : Char) : Bool := a == b

/-- Is `pat` a prefix of `l` under the comparison `eqc`? -/
def isPrefixBy (eqc : Char → Char → Bool) : List Char → List Char → Bool
  | [], _ => true
  | _ :: _, [] => false
  | p :: ps, c :: cs => eqc p c && isPrefixBy eqc ps cs

/-- Index of the first occurrence of the (nonempty) pattern `pat` in
`l` under comparison `eqc`. -/
def findMatchIdx (eqc : Char → Char → Bool) (pat : List Char) :
    List Char → Option Nat
  | [] => none
  | c :: rest =>
    if isPrefixBy eqc pat (c :: rest) then some 0
    else (findMatchIdx eqc pat rest).map (· + 1)

/-- Split `l` at the first occurrence of `pat`: the text before the
match and the text after it. -/
def splitOnceBy (eqc : Char → Char → Bool) (pat : List Char)
    (l : List Char) : Option (List Char × List Char) :=
  (findMatchIdx eqc pat l).map (fun i => (l.take i, l.drop (i + pat.length)))

theorem splitOnceBy_length_lt {eqc : Char → Char → Bool}
    {pat l before after : List Char}
    (h : splitOnceBy eqc pat l = some (before, after)) (hp : pat ≠ []) :
    after.length < l.length := by
  obtain ⟨i, hi, heq⟩ := Option.map_eq_some'.mp h
  obtain ⟨h1, h2⟩ := Prod.mk.injEq _ _ _ _ ▸ heq
  subst h2
  have hl : l ≠ [] := by
    intro he
    subst he
    simp [findMatchIdx] at hi
  have hlen : 0 < l.length := List.length_pos.mpr hl
  have hplen : 0 < pat.length := List.length_pos.mpr hp
  simp only [List.length_drop]
  omega

/-- One `/<tag[^>]*>[\s\S]*?<\/tag>/gi` replacement pass: repeatedly
find `<tag`, then the closing `>` of the opening tag, then the nearest
`</tag>`, and delete the whole block. -/
def removeTagBlocks (tagName : List Char) (l : List Char) : List Char :=
  match h1 : splitOnceBy charCI ('<' :: tagName) l with
  | none => l
  | some (before, afterOpen) =>
    match h2 : splitOnceBy charExact ['>'] afterOpen with
    | none => l
    | some (_, afterGt) =>
      match h3 : splitOnceBy charCI ('<' :: '/' :: tagName ++ ['>']) afterGt with
      | none => l
      | some (_, afterClose) => before ++ removeTagBlocks tagName afterClose
termination_by l.length
decreasing_by
  have e1 := splitOnceBy_length_lt h1 (by simp)
  have e2 := splitOnceBy_length_lt h2 (by simp)
  have e3 := splitOnceBy_length_lt h3 (by simp)
  omega

/-- `.replace(/<[^>]+>/g, ' ')`: each tag (a `<`, at least one
non-`>` character, then `>`) becomes a single space. -/
def removeTags : List Char → List Char
  | [] => []
  | c :: rest =>
    if c = '<' then
      match h : splitOnceBy charExact ['>'] rest with
      | some (between, after) =>
        if between.isEmpty then c :: removeTags rest
        else ' ' :: removeTags after
      | none => c :: removeTags rest
    else c :: removeTags rest
termination_by l => l.length
decreasing_by
  · simp
  · have e := splitOnceBy_length_lt h (by simp)
    simp
    omega
  · simp
  · simp

/-- `.replace(pat, rep)` with the `g` flag for a nonempty literal
pattern `p0 :: prest`: scanning resumes after each replacement. -/
def replaceAll (p0 : Char) (prest rep : List Char) (l : List Char) :
    List Char :=
  match h : splitOnceBy charExact (p0 :: prest) l with
  | none => l
  | some (before, after) => before ++ rep ++ replaceAll p0 prest rep after
termination_by l.length
decreasing_by
  have e := splitOnceBy_length_lt h (by simp)
  omega

/-- `stripHtml` (identical in `text-processor.ts` and
`s3-vectors-search.ts`): drop script/style blocks, turn tags into
spaces, decode the six common entities, collapse whitespace, trim. -/
def stripHtmlChars (l : List Char) : List Char :=
  trimChars (collapseWs
    (replaceAll '&' "#39;".data ['\'']
      (replaceAll '&' "quot;".data ['"']
        (replaceAll '&' "gt;".data ['>']
          (replaceAll '&' "lt;".data ['<']
            (replaceAll '&' "amp;".data ['&']
              (replaceAll '&' "nbsp;".data [' ']
                (removeTags
                  (removeTagBlocks "style".data
                    (removeTagBlocks "script".data l))))))))))

def stripHtml (s : String) : String :=
  ⟨stripHtmlChars s.data⟩

/-! ## Text preprocessor (`text-processor.ts`) -/

/-- `DynamoDBArticleRecord` (the unmarshalled stream image; optional
fields are `Option`). -/
structure DynamoDBArticleRecord where
  url_hash : String
  title_hash : String
  url : String
  title : String
  content : String
  thumbnail : Option String
  pubDate : String
  pubDateEpoch : Int
  author : Option String
  category : String
  s3Key : String
  createdAt : String
  updatedAt : String
  ttl : Int
deriving DecidableEq, Repr

/-- `ProcessedArticle` from `text-processor.ts` (distinct from the
ingestor-side record of the same name). -/
structure VectorsProcessedArticle where
  vectorKey : String
  embeddingText : String
  metadata : VectorMetadata
deriving DecidableEq, Repr

/-- `createEmbeddingText`: cleaned title, blank line, cleaned content,
hard-truncated to 8000 characters. -/
def createEmbeddingText (title content : String) : String :=
  (stripHtml title ++ "\n\n" ++ stripHtml content).take 8000

/-- `processArticleForVectors`.  `todayIso` stands for
`new Date().toISOString()` (wall clock, used only when the record has no
`pubDate`). -/
def processArticleForVectors (todayIso : String)
    (record : DynamoDBArticleRecord) : VectorsProcessedArticle :=
  let pubDate : String :=
    if record.pubDate != "" then ⟨record.pubDate.data.takeWhile (fun c => c != 'T')⟩
    else ⟨todayIso.data.takeWhile (fun c => c != 'T')⟩
  { vectorKey := record.url_hash
    embeddingText := createEmbeddingText record.title record.content
    metadata :=
      { category := if record.category != "" then record.category else "unknown"
        pub_date := pubDate
        article_id := record.url_hash
        title := stripHtml record.title
        url := record.url } }

/-! ## Stream ingestor (`prna-vectors-ingestor/index.ts`) -/

inductive IngestionStatusKind where
  | success
  | error
  | skipped
deriving DecidableEq, Repr

/-- `IngestionStatus` (the wall-clock `timestamp`/`durationMs` fields are
not modelled). -/
structure IngestionStatus where
  urlHash : String
  vectorKey : Option String
  eventName : String
  status : IngestionStatusKind
  reason : Option String
  title : Option String
  category : Option String
  url : Option String
deriving DecidableEq, Repr

/-- A DynamoDB Streams record as `processRecord` reads it:
`record.eventName`, `record.dynamodb?.Keys?.url_hash?.S`, and the
unmarshalled `record.dynamodb?.NewImage`. -/
structure StreamRecord where
  eventName : Option String
  keysUrlHash : Option String
  newImage : Option DynamoDBArticleRecord
deriving DecidableEq, Repr

/-- JavaScript `x || dflt` for an optional string (empty string is
falsy). -/
def jsOr (x : Option String) (dflt : String) : String :=
  match x with
  | some s => if s = "" then dflt else s
  | none => dflt

/-- How many external calls a `processRecord` run performed. -/
structure IngestorEffects where
  embedCalls : Nat
  putVectorCalls : Nat
deriving DecidableEq, Repr

/-- `processRecord` from `prna-vectors-ingestor/index.ts`.
`generateEmbedding` and `putVector` are the external embedding provider
and S3 Vectors client (throwing modelled as `Except.error`); the second
component counts the calls made to them. -/
def processRecord (generateEmbedding : String → Except String (List ℚ))
    (putVector : VectorInput → Except String Unit) (todayIso : String)
    (record : StreamRecord) : IngestionStatus × IngestorEffects :=
  let eventName := record.eventName.getD "UNKNOWN"
  let urlHash := jsOr record.keysUrlHash "unknown"
  if eventName ≠ "INSERT" ∧ eventName ≠ "MODIFY" then
    ({ urlHash := urlHash, vectorKey := none, eventName := eventName
       status := .skipped
       reason := some ("Event type " ++ eventName ++ " is not a target")
       title := none, category := none, url := none }, ⟨0, 0⟩)
  else
    match record.newImage with
    | none =>
      ({ urlHash := urlHash, vectorKey := none, eventName := eventName
         status := .skipped, reason := some "No NewImage in stream record"
         title := none, category := none, url := none }, ⟨0, 0⟩)
    | some article =>
      if article.url = "" then
        ({ urlHash := urlHash, vectorKey := none, eventName := eventName
           status := .skipped, reason := some "No url field in article"
           title := none, category := none, url := none }, ⟨0, 0⟩)
      else
        let processed := processArticleForVectors todayIso article
        if processed.embeddingText = "" ∨ trimChars processed.embeddingText.data = [] then
          ({ urlHash := urlHash, vectorKey := none, eventName := eventName
             status := .skipped, reason := some "Empty embedding text"
             title := none, category := none, url := none }, ⟨0, 0⟩)
        else
          match generateEmbedding processed.embeddingText with
          | .error msg =>
            ({ urlHash := urlHash, vectorKey := none, eventName := eventName
               status := .error, reason := some msg
               title := none, category := none, url := none }, ⟨1, 0⟩)
          | .ok embedding =>
            match putVector ⟨processed.vectorKey, embedding, processed.metadata⟩ with
            | .error msg =>
              ({ urlHash := urlHash, vectorKey := none, eventName := eventName
                 status := .error, reason := some msg
                 title := none, category := none, url := none }, ⟨1, 1⟩)
            | .ok _ =>
              ({ urlHash := urlHash, vectorKey := some processed.vectorKey
                 eventName := eventName, status := .success, reason := none
                 title := some processed.metadata.title
                 category := some processed.metadata.category
                 url := some processed.metadata.url }, ⟨1, 1⟩)

/-! ## Hydrating search (`s3-vectors-search.ts`) -/

/-- A DynamoDB article as projected by `batchGetArticles`
(`url_hash, title, url, content, category, pubDate, author,
thumbnail`). -/
structure DbArticle where
  url_hash : String
  title : String
  url : String
  content : String
  category : String
  pubDate : String
  author : String
  thumbnail : String
deriving DecidableEq, Repr

/-- A `VectorSearchResult` hit from `queryVectors`. -/
structure VectorHit where
  key : String
  distance : ℚ
  metadata : VectorMetadata
deriving DecidableEq, Repr

/-- A LangChain `Document` as built by `searchArticles`. -/
structure OutDoc where
  pageContent : String
  title : String
  url : String
  category : String
  pub_date : String
  distance : ℚ
  article_id : String
  img_src : Option String
deriving DecidableEq, Repr

/-- A JavaScript `Map` keyed by strings, in insertion order: `set` on a
present key updates in place, otherwise appends. -/
def mapGet {α : Type} (m : List (String × α)) (k : String) : Option α :=
  (m.find? (fun e => e.1 == k)).map (fun e => e.2)

def mapSet {α : Type} (m : List (String × α)) (k : String) (v : α) :
    List (String × α) :=
  if m.any (fun e => e.1 == k) then
    m.map (fun e => if e.1 == k then (k, v) else e)
  else m ++ [(k, v)]

def mapDelete {α : Type} (m : List (String × α)) (k : String) :
    List (String × α) :=
  m.filter (fun e => e.1 != k)

/-- `BatchGetItem` chunks of at most 100 keys. -/
def batchChunks (l : List String) : List (List String) :=
  if l.isEmpty then [] else l.take 100 :: batchChunks (l.drop 100)
termination_by l.length
decreasing_by
  rename_i h
  have : l ≠ [] := by simpa [List.isEmpty_iff] using h
  have : 0 < l.length := List.length_pos.mpr this
  simp only [List.length_drop]
  omega

/-- `batchGetArticles`: chunked `BatchGetItem`; the primary store's
`get` is the oracle `db`; each returned item is stored in the result map
under its `url_hash`. -/
def batchGetArticles (db : String → Option DbArticle)
    (urlHashes : List String) : List (String × DbArticle) :=
  (batchChunks urlHashes).foldl
    (fun result batch =>
      (batch.filterMap db).foldl (fun m item => mapSet m item.url_hash item) result)
    []

/-- The per-hit document construction inside `searchArticles`'s result
loop: hydrate from the fetched article when present, otherwise a
metadata-only document. -/
def hydrateHit (articlesMap : List (String × DbArticle)) (result : VectorHit) :
    OutDoc :=
  match mapGet articlesMap result.metadata.article_id with
  | some article =>
    let content := stripHtml article.content
    let title := if article.title != "" then article.title else result.metadata.title
    { pageContent := (title ++ "\n\n" ++ content).take 4000
      title := title
      url := if article.url != "" then article.url else result.metadata.url
      category := result.metadata.category
      pub_date := result.metadata.pub_date
      distance := result.distance
      article_id := result.metadata.article_id
      img_src := if article.thumbnail != "" then some article.thumbnail else none }
  | none =>
    { pageContent := result.metadata.title
      title := result.metadata.title
      url := result.metadata.url
      category := result.metadata.category
      pub_date := result.metadata.pub_date
      distance := result.distance
      article_id := result.metadata.article_id
      img_src := none }

/-- `searchArticles`, starting from the vector hits (embedding the query
and running `queryVectors` are external calls that produce
`vectorResults`). -/
def searchArticles (db : String → Option DbArticle)
    (vectorResults : List VectorHit) : List OutDoc :=
  if vectorResults.isEmpty then []
  else
    let articlesMap := batchGetArticles db
      (vectorResults.map (fun r => r.metadata.article_id))
    vectorResults.map (hydrateHit articlesMap)

/-- Specification-side shape of the degraded document for a stale hit: a
minimal document built only from the vector metadata. -/
def synthesizedDoc (result : VectorHit) : OutDoc :=
  { pageContent := result.metadata.title
    title := result.metadata.title
    url := result.metadata.url
    category := result.metadata.category
    pub_date := result.metadata.pub_date
    distance := result.distance
    article_id := result.metadata.article_id
    img_src := none }

/-! ## Two-tier cache (`cache-service.ts`)

The Upstash Redis tier is modelled as a keyed store with absolute expiry
(set with `ex: ttl` expires `ttl` seconds after the set; a get after
that returns null).  `redisAvail = false` covers both a missing client
(`redis = null`) and an erroring one — in both cases every branch falls
through to the in-memory tier.  `JSON.stringify`/`JSON.parse`
round-tripping is modelled as the identity. -/

structure MemoryEntry (V : Type) where
  data : V
  timestamp : Nat
deriving DecidableEq, Repr

structure RedisEntry (V : Type) where
  value : V
  expireAt : Nat
deriving DecidableEq, Repr

structure CacheState (V : Type) where
  redisAvail : Bool
  redisStore : List (String × RedisEntry V)
  memoryCache : List (String × MemoryEntry V)
deriving DecidableEq, Repr

def MEMORY_CACHE_MAX_SIZE : Nat := 100

/-- Seconds. -/
def DEFAULT_TTL : Nat := 300

/-- `options.ttl || DEFAULT_TTL` (0 is falsy). -/
def effectiveTtl (ttlOpt : Option Nat) : Nat :=
  match ttlOpt with
  | some t => if t = 0 then DEFAULT_TTL else t
  | none => DEFAULT_TTL

/-- `redis.get(key)` at time `now` (ms). -/
def redisGet {V : Type} (st : CacheState V) (key : String) (now : Nat) :
    Option V :=
  if st.redisAvail then
    match mapGet st.redisStore key with
    | some e => if now < e.expireAt then some e.value else none
    | none => none
  else none

/-- `cacheGet`: Redis first, then the in-memory fallback, which honours
the fixed `DEFAULT_TTL` and lazily deletes stale entries.  Returns the
value (or `none` on a miss) and the possibly-updated state. -/
def cacheGet {V : Type} (st : CacheState V) (key : String) (now : Nat) :
    Option V × CacheState V :=
  match redisGet st key now with
  | some v => (some v, st)
  | none =>
    match mapGet st.memoryCache key with
    | some memEntry =>
      if now - memEntry.timestamp < DEFAULT_TTL * 1000 then
        (some memEntry.data, st)
      else
        (none, { st with memoryCache := mapDelete st.memoryCache key })
    | none => (none, st)

/-- `cacheSet`: write-through to Redis (when available) with
`ex: ttl`, then store into the bounded in-memory map, evicting the
oldest entry first when at capacity. -/
def cacheSet {V : Type} (st : CacheState V) (key : String) (data : V)
    (ttlOpt : Option Nat) (now : Nat) : CacheState V :=
  let ttl := effectiveTtl ttlOpt
  let st1 :=
    if st.redisAvail then
      { st with redisStore := mapSet st.redisStore key ⟨data, now + ttl * 1000⟩ }
    else st
  let mem :=
    if MEMORY_CACHE_MAX_SIZE ≤ st1.memoryCache.length then
      match st1.memoryCache.head? with
      | some oldest => mapDelete st1.memoryCache oldest.1
      | none => st1.memoryCache
    else st1.memoryCache
  { st1 with memoryCache := mapSet mem key ⟨data, now⟩ }

/-- `cacheInvalidate`: delete from both tiers. -/
def cacheInvalidate {V : Type} (st : CacheState V) (key : String) :
    CacheState V :=
  let st1 :=
    if st.redisAvail then { st with redisStore := mapDelete st.redisStore key }
    else st
  { st1 with memoryCache := mapDelete st1.memoryCache key }

/-- Redis glob (`*` wildcards only, as used by the cache keys), also the
semantics of the mirrored regex `'^' + pattern.replace(/\*/g, '.*') + '$'`. -/
def globMatch : List Char → List Char → Bool
  | [], [] => true
  | [], _ :: _ => false
  | '*' :: ps, [] => globMatch ps []
  | '*' :: ps, c :: ks => globMatch ps (c :: ks) || globMatch ('*' :: ps) ks
  | _ :: _, [] => false
  | p :: ps, c :: ks => p == c && globMatch ps ks
termination_by p k => (p.length, k.length)

/-- `cacheInvalidatePattern`: the cursor-paginated Redis `SCAN` + `DEL`
loop deletes exactly the matching keys; the in-memory tier is filtered
by the equivalent regex. -/
def cacheInvalidatePattern {V : Type} (st : CacheState V) (pattern : String) :
    CacheState V :=
  let st1 :=
    if st.redisAvail then
      { st with redisStore :=
          st.redisStore.filter (fun e => !globMatch pattern.data e.1.data) }
    else st
  { st1 with memoryCache :=
      st1.memoryCache.filter (fun e => !globMatch pattern.data e.1.data) }

/-- The cache-service API calls, for stating state invariants. -/
inductive CacheOp (V : Type) where
  | get (key : String) (now : Nat)
  | set (key : String) (data : V) (ttl : Option Nat) (now : Nat)
  | invalidate (key : String)
  | invalidatePattern (pattern : String)

def applyCacheOp {V : Type} (st : CacheState V) : CacheOp V → CacheState V
  | .get k now => (cacheGet st k now).2
  | .set k v ttl now => cacheSet st k v ttl now
  | .invalidate k => cacheInvalidate st k
  | .invalidatePattern p => cacheInvalidatePattern st p

def runCacheOps {V : Type} (init : CacheState V) (ops : List (CacheOp V)) :
    CacheState V :=
  ops.foldl applyCacheOp init

/-- Process start: both tiers empty. -/
def initialCacheState (V : Type) (redisAvail : Bool) : CacheState V :=
  ⟨redisAvail, [], []⟩

/-- Keys of a map in order. -/
def mapKeys {α : Type} (m : List (String × α)) : List String :=
  m.map (fun e => e.1)

/-! Concrete fixtures used by witness theorems. -/

def exSearchDoc (ident content : String) : SearchDoc :=
  { pageContent := content, article_id := ident, title := ident
    url := "https://x.com/" ++ ident, category := "finance", pub_date := "" }

/-- A search oracle: query "A" and "C" succeed, "B" throws. -/
def exSearch (q : String) : Except String (List SearchDoc) :=
  if q = "A" then .ok [exSearchDoc "a" "one", exSearchDoc "shared" "two"]
  else if q = "B" then .error "boom"
  else if q = "C" then .ok [exSearchDoc "shared" "three", exSearchDoc "c" "four"]
  else .ok []

def exDbArticle (urlHash : String) : DbArticle :=
  { url_hash := urlHash, title := "Title " ++ urlHash
    url := "https://x.com/" ++ urlHash, content := "<p>body</p>"
    category := "finance", pubDate := "2026-01-01", author := "a"
    thumbnail := "" }

/-- A primary store holding only the article `"a1"`. -/
def exDb (h : String) : Option DbArticle :=
  if h = "a1" then some (exDbArticle "a1") else none

def exVectorHit (ident : String) (dist : ℚ) : VectorHit :=
  { key := ident, distance := dist
    metadata := { category := "finance", pub_date := "2026-01-01"
                  article_id := ident, title := "T" ++ ident
                  url := "https://x.com/" ++ ident } }

/-- A full (100-entry) in-memory cache for the eviction witness. -/
def exMemCache : List (String × MemoryEntry String) :=
  (List.range MEMORY_CACHE_MAX_SIZE).map (fun i => (toString i, ⟨"x", 0⟩))

def exFullCacheState : CacheState String :=
  ⟨false, [], exMemCache⟩

end NewfanFinance

namespace NewfanFinance

/-! ## Theorems: dedup writer (C1, C2) -/

theorem isDuplicate_eq_false_iff (titleHash : String) (table : ArticleTable) :
    isDuplicate titleHash table = false ↔
      ∀ r ∈ table, r.title_hash ≠ titleHash := by
  simp [isDuplicate]

theorem countByTitleHash_putItem_of_absent (a : ProcessedArticle)
    (table : ArticleTable) (h : ∀ r ∈ table, r.title_hash ≠ a.title_hash) :
    countByTitleHash a.title_hash (putItem a table) = 1 := by
  unfold countByTitleHash putItem
  rw [List.filter_append]
  have h1 : (table.filter (fun r => r.url_hash != a.url_hash)).filter
      (fun r => r.title_hash == a.title_hash) = [] := by
    rw [List.filter_eq_nil_iff]
    intro r hr
    have hr' : r ∈ table := (List.mem_filter.mp hr).1
    simpa using h r hr'
  rw [h1]
  simp

/-- **C1** — once an article is inserted, a later article with the same
title hash is skipped: the second call writes nothing and exactly one
record with that title identity remains. -/
theorem upsertArticle_dedup (table : ArticleTable) (a a' : ProcessedArticle)
    (hfirst : (upsertArticle a table).2 = .inserted)
    (hsame : a'.title_hash = a.title_hash) :
    (upsertArticle a' (upsertArticle a table).1).2 = .skipped_duplicate ∧
    (upsertArticle a' (upsertArticle a table).1).1 = (upsertArticle a table).1 ∧
    countByTitleHash a.title_hash (upsertArticle a table).1 = 1 := by
  have hdup : isDuplicate a.title_hash table = false := by
    by_contra hne
    have : isDuplicate a.title_hash table = true := by
      revert hne; cases isDuplicate a.title_hash table <;> simp
    simp [upsertArticle, this] at hfirst
  have habsent : ∀ r ∈ table, r.title_hash ≠ a.title_hash :=
    (isDuplicate_eq_false_iff _ _).mp hdup
  have hstate : (upsertArticle a table).1 = putItem a table := by
    simp [upsertArticle, hdup]
  have hmem : a ∈ putItem a table := by simp [putItem]
  have hdup2 : isDuplicate a'.title_hash (putItem a table) = true := by
    unfold isDuplicate
    rw [List.any_eq_true]
    exact ⟨a, hmem, by simp [hsame]⟩
  refine ⟨?_, ?_, ?_⟩
  · rw [hstate]; simp [upsertArticle, hdup2]
  · rw [hstate]; simp [upsertArticle, hdup2]
  · rw [hstate]; exact countByTitleHash_putItem_of_absent a table habsent

/-- Witness for C1 at a concrete input. -/
theorem upsertArticle_dedup_witness :
    (upsertArticle (mkArticle "u2" "t" "second")
        (upsertArticle (mkArticle "u1" "t" "first") []).1).2 =
      .skipped_duplicate ∧
    countByTitleHash "t" (upsertArticle (mkArticle "u1" "t" "first") []).1 = 1 := by
  have h := upsertArticle_dedup [] (mkArticle "u1" "t" "first")
    (mkArticle "u2" "t" "second") (by decide) (by decide)
  exact ⟨h.1, h.2.2⟩

/-- **C2 counterexample** — re-ingesting the same URL whose title hash is
already stored does *not* overwrite: the call is skipped and the old
record survives, so the overwrite is not independent of the title-hash
check. -/
theorem upsertArticle_sameUrl_not_independent :
    (mkArticle "u" "t" "new").url_hash = (mkArticle "u" "t" "old").url_hash ∧
    (mkArticle "u" "t" "new") ≠ (mkArticle "u" "t" "old") ∧
    upsertArticle (mkArticle "u" "t" "new") [mkArticle "u" "t" "old"] =
      ([mkArticle "u" "t" "old"], .skipped_duplicate) := by
  refine ⟨rfl, by decide, ?_⟩
  decide

/-- **C2 amended** — same-URL re-ingestion overwrites (latest write wins)
*only when* the incoming title hash is not already stored: under that
proviso the call inserts, the new record is stored, and it is the unique
record under its URL hash. -/
theorem upsertArticle_sameUrl_overwrites (table : ArticleTable)
    (a' : ProcessedArticle)
    (hnew : isDuplicate a'.title_hash table = false) :
    (upsertArticle a' table).2 = .inserted ∧
    a' ∈ (upsertArticle a' table).1 ∧
    ∀ r ∈ (upsertArticle a' table).1, r.url_hash = a'.url_hash → r = a' := by
  refine ⟨by simp [upsertArticle, hnew], ?_, ?_⟩
  · simp [upsertArticle, hnew, putItem]
  · intro r hr hurl
    simp only [upsertArticle, hnew, Bool.false_eq_true, if_false] at hr
    simp only [putItem, List.mem_append, List.mem_filter,
      List.mem_singleton] at hr
    rcases hr with ⟨_, hkeep⟩ | rfl
    · exfalso
      revert hkeep
      simp [hurl]
    · rfl

/-- Witness for the amended C2 at a concrete input: the store holds an
old version of URL `u`; re-ingestion with a fresh title hash replaces
it. -/
theorem upsertArticle_sameUrl_overwrites_witness :
    (upsertArticle (mkArticle "u" "t2" "new") [mkArticle "u" "t1" "old"]).2 =
      .inserted ∧
    (mkArticle "u" "t2" "new") ∈
      (upsertArticle (mkArticle "u" "t2" "new") [mkArticle "u" "t1" "old"]).1 := by
  have h := upsertArticle_sameUrl_overwrites [mkArticle "u" "t1" "old"]
    (mkArticle "u" "t2" "new") (by decide)
  exact ⟨h.1, h.2.1⟩

end NewfanFinance

namespace NewfanFinance

/-! ## Theorems: backfill flush retry (C4) -/

/-- **C4** — `flushVectorsBatch` makes at most 3 batch-write attempts,
with exponential backoff capped at 30 s; failing twice and then
succeeding leaves the stats unchanged (net zero errors), while
exhausting all attempts adds the batch size to `totalError` and
subtracts it from `totalSuccess`. -/
theorem flushVectorsBatch_retry_spec (putOk : Nat → Bool)
    (vectors : List VectorInput) (stats : BackfillStats) :
    (∀ attempt, backoffMs attempt ≤ 30000) ∧
    backoffMs 1 = 2000 ∧ backoffMs 2 = 4000 ∧
    (flushVectorsBatch putOk vectors stats 3).2 ≤ 3 ∧
    (putOk 1 = false → putOk 2 = false → putOk 3 = true →
      flushVectorsBatch putOk vectors stats 3 = (stats, 3)) ∧
    (putOk 1 = false → putOk 2 = false → putOk 3 = false →
      (flushVectorsBatch putOk vectors stats 3).1.totalError
          = stats.totalError + vectors.length ∧
      (flushVectorsBatch putOk vectors stats 3).1.totalSuccess
          = stats.totalSuccess - vectors.length) := by
  refine ⟨fun attempt => Nat.min_le_right _ _, rfl, rfl, ?_, ?_, ?_⟩
  · cases h1 : putOk 1 <;> cases h2 : putOk 2 <;> cases h3 : putOk 3 <;>
      simp [flushVectorsBatch, flushGo, h1, h2, h3]
  · intro h1 h2 h3
    simp [flushVectorsBatch, flushGo, h1, h2, h3]
  · intro h1 h2 h3
    simp [flushVectorsBatch, flushGo, h1, h2, h3]

/-- Witness for C4: two failures then success leave the stats unchanged
after exactly 3 calls. -/
theorem flushVectorsBatch_retry_witness :
    flushVectorsBatch (fun n => n == 3) [] ⟨0, 0, 0, 0, []⟩ 3 =
      (⟨0, 0, 0, 0, []⟩, 3) :=
  (flushVectorsBatch_retry_spec (fun n => n == 3) [] ⟨0, 0, 0, 0, []⟩).2.2.2.2.1
    (by decide) (by decide) (by decide)

/-! ## Theorems: stream ingestor non-target events (C9) -/

/-- **C9** — a change-feed record whose event name is neither `INSERT`
nor `MODIFY` yields a `skipped` outcome whose reason names the
non-target event type, and neither the embedding provider nor the
vector store is called. -/
theorem processRecord_skips_nonTarget
    (generateEmbedding : String → Except String (List ℚ))
    (putVector : VectorInput → Except String Unit) (todayIso : String)
    (record : StreamRecord)
    (h1 : record.eventName.getD "UNKNOWN" ≠ "INSERT")
    (h2 : record.eventName.getD "UNKNOWN" ≠ "MODIFY") :
    (processRecord generateEmbedding putVector todayIso record).1.status
        = .skipped ∧
    (processRecord generateEmbedding putVector todayIso record).1.reason
        = some ("Event type " ++ record.eventName.getD "UNKNOWN"
            ++ " is not a target") ∧
    (processRecord generateEmbedding putVector todayIso record).2 = ⟨0, 0⟩ := by
  simp only [processRecord]
  rw [if_pos ⟨h1, h2⟩]
  exact ⟨rfl, rfl, rfl⟩

/-- Witness for C9: a `REMOVE` record is skipped with no external
calls. -/
theorem processRecord_skips_nonTarget_witness :
    (processRecord (fun _ => .error "no call") (fun _ => .ok ()) ""
        ⟨some "REMOVE", some "u", none⟩).1.status = .skipped ∧
    (processRecord (fun _ => .error "no call") (fun _ => .ok ()) ""
        ⟨some "REMOVE", some "u", none⟩).1.reason
      = some "Event type REMOVE is not a target" ∧
    (processRecord (fun _ => .error "no call") (fun _ => .ok ()) ""
        ⟨some "REMOVE", some "u", none⟩).2 = ⟨0, 0⟩ :=
  processRecord_skips_nonTarget (fun _ => .error "no call") (fun _ => .ok ())
    "" ⟨some "REMOVE", some "u", none⟩ (by decide) (by decide)

end NewfanFinance

namespace NewfanFinance

/-! ## Theorems: multi-query merge (C5) -/

theorem addDocs_append (acc : List String × List SearchDoc)
    (l1 l2 : List SearchDoc) :
    addDocs acc (l1 ++ l2) = addDocs (addDocs acc l1) l2 := by
  simp [addDocs, List.foldl_append]

theorem addDocs_nil (acc : List String × List SearchDoc) :
    addDocs acc [] = acc := rfl

theorem foldl_addDocs_eq (lists : List (List SearchDoc)) :
    ∀ acc : List String × List SearchDoc,
      lists.foldl addDocs acc = addDocs acc lists.flatten := by
  induction lists with
  | nil => intro acc; simp [addDocs_nil]
  | cons a t ih =>
    intro acc
    simp only [List.foldl_cons, List.flatten_cons, addDocs_append]
    exact ih _

theorem addDocs_eq_dedupFirstBy (l : List SearchDoc) :
    ∀ (seen : List String) (out : List SearchDoc),
      (addDocs (seen, out) l).2 = out ++ dedupFirstBy dedupKey seen l := by
  induction l with
  | nil => intro seen out; simp [addDocs_nil, dedupFirstBy]
  | cons d rest ih =>
    intro seen out
    by_cases h : dedupKey d ∈ seen
    · have h1 : addDocs (seen, out) (d :: rest) = addDocs (seen, out) rest := by
        simp [addDocs, h]
      have h2 : dedupFirstBy dedupKey seen (d :: rest)
          = dedupFirstBy dedupKey seen rest := by
        simp [dedupFirstBy, h]
      rw [h1, ih, h2]
    · have h1 : addDocs (seen, out) (d :: rest)
          = addDocs (seen ++ [dedupKey d], out ++ [d]) rest := by
        simp [addDocs, h]
      have h2 : dedupFirstBy dedupKey seen (d :: rest)
          = d :: dedupFirstBy dedupKey (seen ++ [dedupKey d]) rest := by
        simp [dedupFirstBy, h]
      rw [h1, ih, h2]
      simp

theorem mergeSearchResults_eq_dedup (lists : List (List SearchDoc)) :
    mergeSearchResults lists = dedupFirstBy dedupKey [] lists.flatten := by
  unfold mergeSearchResults
  rw [foldl_addDocs_eq]
  simpa using addDocs_eq_dedupFirstBy lists.flatten [] []

theorem dedupFirstBy_congr (key1 key2 : SearchDoc → String)
    (l : List SearchDoc) (h : ∀ d ∈ l, key1 d = key2 d) :
    ∀ seen, dedupFirstBy key1 seen l = dedupFirstBy key2 seen l := by
  induction l with
  | nil => intro seen; rfl
  | cons d rest ih =>
    intro seen
    have hd : key1 d = key2 d := h d (by simp)
    have hrest : ∀ d ∈ rest, key1 d = key2 d := fun x hx => h x (by simp [hx])
    unfold dedupFirstBy
    rw [hd]
    by_cases hc : seen.contains (key2 d)
    · rw [if_pos hc, if_pos hc, ih hrest]
    · rw [if_neg hc, if_neg hc, ih hrest]

/-- **C5** — in quality mode, when the second sub-query's search throws,
the merged result is exactly the first-seen-order deduplication (by
`article_id`) of the first and third sub-queries' documents: the failed
sub-query contributes nothing and does not abort its siblings, and
earlier (more direct) queries win ties. -/
theorem multiQuerySearch_failedSubquery
    (search : String → Except String (List SearchDoc)) (q1 q2 q3 e : String)
    (hq1 : q1 ≠ "not_needed") (hq1' : q1 ≠ "") (hq3' : q3 ≠ "")
    (hfail : search q2 = .error e)
    (hids : ∀ d ∈ searchOrEmpty search q1 ++ searchOrEmpty search q3,
      d.article_id ≠ "") :
    (multiQuerySearch search q1 q2 q3).1 = q1 ∧
    (multiQuerySearch search q1 q2 q3).2 =
      dedupFirstBy (fun d => d.article_id) []
        (searchOrEmpty search q1 ++ searchOrEmpty search q3) := by
  have hkey : ∀ d ∈ searchOrEmpty search q1 ++ searchOrEmpty search q3,
      dedupKey d = d.article_id := by
    intro d hd
    have := hids d hd
    simp [dedupKey, this]
  have hq2empty : searchOrEmpty search q2 = [] := by
    simp [searchOrEmpty, hfail]
  unfold multiQuerySearch
  rw [if_neg hq1]
  refine ⟨rfl, ?_⟩
  have b1 : (q1 != "") = true := by simpa using hq1'
  have b3 : (q3 != "") = true := by simpa using hq3'
  by_cases hq2 : q2 = ""
  · have b2 : (q2 != "") = false := by simp [hq2]
    have hqueries : [q1, q2, q3].filter (fun q => q != "") = [q1, q3] := by
      simp [List.filter_cons, b1, b2, b3]
    rw [hqueries]
    simp only [List.map_cons, List.map_nil]
    rw [mergeSearchResults_eq_dedup]
    simp only [List.flatten_cons, List.flatten_nil, List.append_nil]
    exact dedupFirstBy_congr _ _ _ hkey []
  · have b2 : (q2 != "") = true := by simpa using hq2
    have hqueries : [q1, q2, q3].filter (fun q => q != "") = [q1, q2, q3] := by
      simp [List.filter_cons, b1, b2, b3]
    rw [hqueries]
    simp only [List.map_cons, List.map_nil]
    rw [mergeSearchResults_eq_dedup]
    simp only [List.flatten_cons, List.flatten_nil, List.append_nil, hq2empty,
      List.nil_append]
    exact dedupFirstBy_congr _ _ _ hkey []

/-- Witness for C5 on the concrete oracle `exSearch` (query "B"
throws): the merge is the deduplication of queries "A" and "C" only. -/
theorem multiQuerySearch_failedSubquery_witness :
    (multiQuerySearch exSearch "A" "B" "C").2 =
      dedupFirstBy (fun d => d.article_id) []
        (searchOrEmpty exSearch "A" ++ searchOrEmpty exSearch "C") :=
  (multiQuerySearch_failedSubquery exSearch "A" "B" "C" "boom"
    (by decide) (by decide) (by decide) (by simp [exSearch]) (by decide)).2

end NewfanFinance

namespace NewfanFinance

/-! ## Theorems: map primitives -/

theorem find?_map_set_self {α : Type} (k : String) (v : α) :
    ∀ (m : List (String × α)), m.any (fun e => e.1 == k) = true →
      (m.map (fun e => if e.1 == k then (k, v) else e)).find?
          (fun e => e.1 == k) = some (k, v) := by
  intro m
  induction m with
  | nil => intro h; simp at h
  | cons e t ih =>
    intro h
    by_cases he : e.1 == k
    · simp only [List.map_cons, if_pos he]
      rw [List.find?_cons_of_pos _ (by simp)]
    · simp only [List.map_cons, if_neg he]
      rw [List.find?_cons_of_neg _ (by simpa using he)]
      apply ih
      simp only [List.any_cons, he, Bool.false_or] at h
      exact h

theorem find?_map_set_ne {α : Type} (k k' : String) (v : α) (hne : k' ≠ k) :
    ∀ m : List (String × α),
      (m.map (fun e => if e.1 == k then (k, v) else e)).find?
          (fun e => e.1 == k') = m.find? (fun e => e.1 == k') := by
  intro m
  induction m with
  | nil => simp
  | cons e t ih =>
    by_cases he : e.1 == k
    · have hek : e.1 = k := by simpa using he
      have hkk' : (k == k') = false := by
        simp [Ne.symm hne]
      have hek' : (e.1 == k') = false := by
        simp [hek, Ne.symm hne]
      simp only [List.map_cons, if_pos he, List.find?_cons, hkk', hek']
      exact ih
    · simp only [List.map_cons, if_neg he]
      by_cases he' : (e.1 == k') = true
      · simp only [List.find?_cons, he']
      · have he2 : (e.1 == k') = false := by simpa using he'
        simp only [List.find?_cons, he2]
        exact ih

theorem mapGet_mapSet_self {α : Type} (m : List (String × α)) (k : String)
    (v : α) : mapGet (mapSet m k v) k = some v := by
  unfold mapGet mapSet
  by_cases hany : m.any (fun e => e.1 == k)
  · rw [if_pos hany, find?_map_set_self k v m hany]
    rfl
  · rw [if_neg hany, List.find?_append]
    have hnone : m.find? (fun e => e.1 == k) = none := by
      rw [List.find?_eq_none]
      intro x hx
      intro hxk
      exact hany (List.any_eq_true.mpr ⟨x, hx, hxk⟩)
    rw [hnone]
    simp

theorem mapGet_mapSet_ne {α : Type} (m : List (String × α)) (k k' : String)
    (v : α) (hne : k' ≠ k) : mapGet (mapSet m k v) k' = mapGet m k' := by
  unfold mapGet mapSet
  by_cases hany : m.any (fun e => e.1 == k)
  · rw [if_pos hany, find?_map_set_ne k k' v hne m]
  · rw [if_neg hany, List.find?_append]
    have hnone : List.find? (fun e => e.1 == k') [(k, v)] = none := by
      simp [Ne.symm hne]
    rw [hnone]
    simp

theorem mapGet_nil {α : Type} (k : String) :
    mapGet ([] : List (String × α)) k = none := rfl

/-! ## Theorems: hydrating search (C6) -/

theorem batchChunks_flatten (l : List String) : (batchChunks l).flatten = l := by
  rw [batchChunks]
  by_cases h : l.isEmpty
  · rw [if_pos h]
    simp [List.isEmpty_iff.mp h]
  · rw [if_neg h]
    simp only [List.flatten_cons]
    rw [batchChunks_flatten (l.drop 100)]
    exact List.take_append_drop 100 l
termination_by l.length
decreasing_by
  have hne : l ≠ [] := by simpa [List.isEmpty_iff] using h
  have : 0 < l.length := List.length_pos.mpr hne
  simp only [List.length_drop]
  omega

theorem foldl_batchStep_eq (db : String → Option DbArticle) :
    ∀ (chunks : List (List String)) (acc : List (String × DbArticle)),
      chunks.foldl
        (fun result batch =>
          (batch.filterMap db).foldl
            (fun m item => mapSet m item.url_hash item) result) acc
      = (chunks.flatten.filterMap db).foldl
          (fun m item => mapSet m item.url_hash item) acc := by
  intro chunks
  induction chunks with
  | nil => intro acc; simp
  | cons a t ih =>
    intro acc
    simp only [List.foldl_cons, List.flatten_cons, List.filterMap_append,
      List.foldl_append]
    exact ih _

theorem batchGetArticles_eq (db : String → Option DbArticle)
    (keys : List String) :
    batchGetArticles db keys
      = (keys.filterMap db).foldl
          (fun m item => mapSet m item.url_hash item) [] := by
  unfold batchGetArticles
  rw [foldl_batchStep_eq, batchChunks_flatten]

theorem mapGet_batchFold (db : String → Option DbArticle)
    (hdb : ∀ h a, db h = some a → a.url_hash = h) :
    ∀ (keys : List String) (acc : List (String × DbArticle)) (k : String),
      mapGet ((keys.filterMap db).foldl
          (fun m item => mapSet m item.url_hash item) acc) k
        = if (db k).isSome ∧ k ∈ keys then db k else mapGet acc k := by
  intro keys
  induction keys with
  | nil => intro acc k; simp
  | cons h t ih =>
    intro acc k
    cases hdbh : db h with
    | none =>
      rw [List.filterMap_cons_none hdbh, ih]
      by_cases hk : k = h
      · subst hk
        simp [hdbh]
      · simp [hk]
    | some a =>
      have ha : a.url_hash = h := hdb h a hdbh
      rw [List.filterMap_cons_some hdbh]
      simp only [List.foldl_cons]
      rw [ih, ha]
      by_cases hk : k = h
      · subst hk
        by_cases hmem : k ∈ t
        · simp [hdbh, hmem]
        · rw [if_neg (fun hc => hmem hc.2)]
          rw [mapGet_mapSet_self]
          rw [if_pos ⟨by simp [hdbh], List.mem_cons_self k t⟩]
          simp [hdbh]
      · rw [mapGet_mapSet_ne acc h k a hk]
        by_cases hmem : k ∈ t
        · simp [hmem, hk]
        · simp [hmem, hk]

/-- **C6** — `searchArticles` returns exactly one document per vector
hit, in hit order; a hit whose article is missing from the primary store
is not dropped but degrades to the metadata-only synthesized document.
The hypothesis `hdb` is the primary store's key contract: a record
fetched under key `h` has `url_hash = h`. -/
theorem searchArticles_hydration (db : String → Option DbArticle)
    (hits : List VectorHit)
    (hdb : ∀ h a, db h = some a → a.url_hash = h) :
    (searchArticles db hits).length = hits.length ∧
    ∀ i hit, hits.get? i = some hit →
      ∃ d, (searchArticles db hits).get? i = some d ∧
        d.article_id = hit.metadata.article_id ∧
        d.distance = hit.distance ∧
        (db hit.metadata.article_id = none → d = synthesizedDoc hit) := by
  by_cases hempty : hits.isEmpty
  · have : hits = [] := List.isEmpty_iff.mp hempty
    subst this
    refine ⟨by simp [searchArticles], ?_⟩
    intro i hit hi
    simp at hi
  · unfold searchArticles
    rw [if_neg hempty]
    refine ⟨by simp, ?_⟩
    intro i hit hi
    refine ⟨hydrateHit (batchGetArticles db
      (hits.map (fun r => r.metadata.article_id))) hit, ?_, ?_, ?_, ?_⟩
    · rw [List.get?_map, hi]
      rfl
    · unfold hydrateHit
      cases hm : mapGet (batchGetArticles db
          (hits.map (fun r => r.metadata.article_id))) hit.metadata.article_id <;>
        simp
    · unfold hydrateHit
      cases hm : mapGet (batchGetArticles db
          (hits.map (fun r => r.metadata.article_id))) hit.metadata.article_id <;>
        simp
    · intro hnone
      have hmget : mapGet (batchGetArticles db
          (hits.map (fun r => r.metadata.article_id)))
            hit.metadata.article_id = none := by
        rw [batchGetArticles_eq, mapGet_batchFold db hdb]
        rw [if_neg (by simp [hnone])]
        exact mapGet_nil _
      unfold hydrateHit
      rw [hmget]
      rfl

/-- Witness for C6: a two-hit result where the second hit has no primary
record; it degrades to the synthesized document and order and count are
preserved. -/
theorem searchArticles_hydration_witness :
    (searchArticles exDb [exVectorHit "a1" 0, exVectorHit "zz" 1]).length = 2 ∧
    ∃ d, (searchArticles exDb
        [exVectorHit "a1" 0, exVectorHit "zz" 1]).get? 1 = some d ∧
      d.article_id = (exVectorHit "zz" 1).metadata.article_id ∧
      d.distance = (exVectorHit "zz" 1).distance ∧
      (exDb (exVectorHit "zz" 1).metadata.article_id = none →
        d = synthesizedDoc (exVectorHit "zz" 1)) := by
  have hdb : ∀ h a, exDb h = some a → a.url_hash = h := by
    intro h a ha
    by_cases hh : h = "a1"
    · subst hh
      simp [exDb] at ha
      rw [← ha]
      rfl
    · simp [exDb, hh] at ha
  have h := searchArticles_hydration exDb
    [exVectorHit "a1" 0, exVectorHit "zz" 1] hdb
  exact ⟨h.1, h.2 1 (exVectorHit "zz" 1) rfl⟩

end NewfanFinance

namespace NewfanFinance

/-! ## Theorems: two-tier cache round-trip (C8) -/

theorem effectiveTtl_pos (ttlOpt : Option Nat) : 0 < effectiveTtl ttlOpt := by
  cases ttlOpt with
  | none => decide
  | some t =>
    by_cases h : t = 0
    · simp [effectiveTtl, h, DEFAULT_TTL]
    · simp [effectiveTtl, h]
      omega

/-- **C8 counterexample** — with the Redis tier live, `cacheSet` with a
1-second TTL followed by `cacheGet` 2 seconds later still returns the
value: the Redis entry has expired, but the in-memory fallback ignores
the requested TTL and serves the entry (it only expires after the fixed
default TTL), refuting "once t has elapsed, get returns a miss". -/
theorem cacheGet_after_ttl_counterexample :
    0 + effectiveTtl (some 1) * 1000 ≤ 2000 ∧
    (cacheGet (cacheSet (initialCacheState String true) "k" "v" (some 1) 0)
        "k" 2000).1 = some "v" := by
  decide

/-- **C8 amended** — `cacheSet` then an immediate `cacheGet` returns the
value; a `cacheGet` is guaranteed to miss only once *both* the requested
TTL and the fixed default TTL (300 s) have elapsed, because the
in-memory fallback tier expires entries by the default TTL regardless of
the per-entry TTL (and a TTL of 0 is treated as the default). -/
theorem cacheSet_roundTrip {V : Type} (st : CacheState V) (key : String)
    (data : V) (ttlOpt : Option Nat) (now now' : Nat) :
    (cacheGet (cacheSet st key data ttlOpt now) key now).1 = some data ∧
    (now + effectiveTtl ttlOpt * 1000 ≤ now' →
      now + DEFAULT_TTL * 1000 ≤ now' →
      (cacheGet (cacheSet st key data ttlOpt now) key now').1 = none) := by
  obtain ⟨avail, redis, memory⟩ := st
  have hpos : 0 < effectiveTtl ttlOpt := effectiveTtl_pos ttlOpt
  have ha : now < now + effectiveTtl ttlOpt * 1000 := by omega
  constructor
  · cases avail <;>
      simp [cacheSet, cacheGet, redisGet, mapGet_mapSet_self, ha, DEFAULT_TTL]
  · intro h1 h2
    have hc : ¬ now' < now + effectiveTtl ttlOpt * 1000 := by omega
    have h2' : now + 300000 ≤ now' := by simpa [DEFAULT_TTL] using h2
    have hd : ¬ now' - now < 300000 := by omega
    cases avail <;>
      simp [cacheSet, cacheGet, redisGet, mapGet_mapSet_self, hc, hd, DEFAULT_TTL]

/-- Witness for the amended C8: TTL 60 s; immediate hit, miss at 400 s
(past both 60 s and the default 300 s). -/
theorem cacheSet_roundTrip_witness :
    (cacheGet (cacheSet (initialCacheState String true) "k" "v" (some 60) 0)
        "k" 0).1 = some "v" ∧
    (cacheGet (cacheSet (initialCacheState String true) "k" "v" (some 60) 0)
        "k" 400000).1 = none :=
  ⟨(cacheSet_roundTrip (initialCacheState String true) "k" "v" (some 60)
      0 0).1,
   (cacheSet_roundTrip (initialCacheState String true) "k" "v" (some 60)
      0 400000).2 (by decide) (by decide)⟩

/-! ## Theorems: bounded in-memory cache (C10) -/

theorem length_mapSet_le {α : Type} (m : List (String × α)) (k : String)
    (v : α) : (mapSet m k v).length ≤ m.length + 1 := by
  unfold mapSet
  by_cases hany : m.any (fun e => e.1 == k)
  · rw [if_pos hany]
    simp
  · rw [if_neg hany]
    simp

theorem length_mapDelete_le {α : Type} (m : List (String × α)) (k : String) :
    (mapDelete m k).length ≤ m.length :=
  List.length_filter_le _ _

theorem cacheGet_memory_sub {V : Type} (st : CacheState V) (key : String)
    (now : Nat) :
    (cacheGet st key now).2.memoryCache = st.memoryCache ∨
    (cacheGet st key now).2.memoryCache = mapDelete st.memoryCache key := by
  cases hr : redisGet st key now with
  | some v => left; simp [cacheGet, hr]
  | none =>
    cases hm : mapGet st.memoryCache key with
    | none => left; simp [cacheGet, hr, hm]
    | some e =>
      by_cases ht : now - e.timestamp < DEFAULT_TTL * 1000
      · left; simp [cacheGet, hr, hm, ht]
      · right; simp [cacheGet, hr, hm, ht]

theorem cacheSet_memory_eq {V : Type} (st : CacheState V) (key : String)
    (data : V) (ttlOpt : Option Nat) (now : Nat) :
    (cacheSet st key data ttlOpt now).memoryCache =
      mapSet
        (if MEMORY_CACHE_MAX_SIZE ≤ st.memoryCache.length then
          match st.memoryCache.head? with
          | some oldest => mapDelete st.memoryCache oldest.1
          | none => st.memoryCache
        else st.memoryCache)
        key ⟨data, now⟩ := by
  obtain ⟨avail, redis, memory⟩ := st
  cases avail <;> simp [cacheSet]

theorem memory_bound_preserved {V : Type} (op : CacheOp V) (st : CacheState V)
    (h : st.memoryCache.length ≤ MEMORY_CACHE_MAX_SIZE) :
    (applyCacheOp st op).memoryCache.length ≤ MEMORY_CACHE_MAX_SIZE := by
  cases op with
  | get k now =>
    rcases cacheGet_memory_sub st k now with hc | hc <;>
      simp only [applyCacheOp, hc]
    · exact h
    · exact le_trans (length_mapDelete_le _ _) h
  | set k v ttl now =>
    simp only [applyCacheOp]
    rw [cacheSet_memory_eq]
    by_cases hcap : MEMORY_CACHE_MAX_SIZE ≤ st.memoryCache.length
    · rw [if_pos hcap]
      cases hm : st.memoryCache with
      | nil =>
        rw [hm] at hcap
        simp [MEMORY_CACHE_MAX_SIZE] at hcap
      | cons e0 t =>
        simp only [hm, List.head?_cons]
        have hdel : (mapDelete (e0 :: t) e0.1).length ≤ t.length := by
          unfold mapDelete
          rw [List.filter_cons]
          simp only [bne_self_eq_false, Bool.false_eq_true, if_false]
          exact List.length_filter_le _ _
        have hset := length_mapSet_le (mapDelete (e0 :: t) e0.1) k
          (⟨v, now⟩ : MemoryEntry V)
        have hlen : st.memoryCache.length = t.length + 1 := by simp [hm]
        omega
    · rw [if_neg hcap]
      have hset := length_mapSet_le st.memoryCache k (⟨v, now⟩ : MemoryEntry V)
      omega
  | invalidate k =>
    obtain ⟨avail, redis, memory⟩ := st
    cases avail <;>
      simpa [applyCacheOp, cacheInvalidate] using
        le_trans (length_mapDelete_le memory k) h
  | invalidatePattern p =>
    obtain ⟨avail, redis, memory⟩ := st
    cases avail <;>
      simpa [applyCacheOp, cacheInvalidatePattern] using
        le_trans (List.length_filter_le _ memory) h

theorem runCacheOps_bound {V : Type} (ops : List (CacheOp V)) :
    ∀ st : CacheState V,
      st.memoryCache.length ≤ MEMORY_CACHE_MAX_SIZE →
      (runCacheOps st ops).memoryCache.length ≤ MEMORY_CACHE_MAX_SIZE := by
  induction ops with
  | nil => intro st h; exact h
  | cons op rest ih =>
    intro st h
    exact ih _ (memory_bound_preserved op st h)

theorem mapKeys_mapSet_mem {α : Type} (m : List (String × α)) (k : String)
    (v : α) (k' : String) :
    k' ∈ mapKeys (mapSet m k v) ↔ k' = k ∨ k' ∈ mapKeys m := by
  unfold mapSet
  by_cases hany : m.any (fun e => e.1 == k)
  · rw [if_pos hany]
    have hkeys : mapKeys (m.map (fun e => if e.1 == k then (k, v) else e))
        = mapKeys m := by
      unfold mapKeys
      rw [List.map_map]
      apply List.map_congr_left
      intro e _
      by_cases he : e.1 == k
      · have : e.1 = k := by simpa using he
        simp [he, this]
      · have hne : e.1 ≠ k := by simpa using he
        simp [hne]
    rw [hkeys]
    have hk : k ∈ mapKeys m := by
      obtain ⟨e, he, hek⟩ := List.any_eq_true.mp hany
      have : e.1 = k := by simpa using hek
      exact this ▸ List.mem_map_of_mem _ he
    constructor
    · intro hm; right; exact hm
    · rintro (rfl | hm)
      · exact hk
      · exact hm
  · rw [if_neg hany]
    unfold mapKeys
    simp [or_comm]

/-- **C10** — the in-memory fallback map stays bounded by 100 entries
over any operation sequence from process start; and a `cacheSet` that
finds the map at capacity evicts exactly the oldest (first-inserted)
entry before storing the new one: afterwards a key is present iff it was
present and is not the oldest key, or it is the newly set key. -/
theorem cacheMemory_bounded_evictsOldest {V : Type} :
    (∀ (redisAvail : Bool) (ops : List (CacheOp V)),
      (runCacheOps (initialCacheState V redisAvail) ops).memoryCache.length
        ≤ MEMORY_CACHE_MAX_SIZE) ∧
    (∀ (st : CacheState V) (key : String) (data : V) (ttlOpt : Option Nat)
        (now : Nat) (e0 : String × MemoryEntry V)
        (t : List (String × MemoryEntry V)),
      (mapKeys st.memoryCache).Nodup →
      st.memoryCache = e0 :: t →
      st.memoryCache.length = MEMORY_CACHE_MAX_SIZE →
      (cacheSet st key data ttlOpt now).memoryCache.length
          ≤ MEMORY_CACHE_MAX_SIZE ∧
      (∀ k', k' ∈ mapKeys (cacheSet st key data ttlOpt now).memoryCache ↔
        ((k' ∈ mapKeys st.memoryCache ∧ k' ≠ e0.1) ∨ k' = key))) := by
  constructor
  · intro redisAvail ops
    exact runCacheOps_bound ops _ (by simp [initialCacheState])
  · intro st key data ttlOpt now e0 t hnodup hcons hlen
    have hcap : MEMORY_CACHE_MAX_SIZE ≤ st.memoryCache.length := by omega
    have hdel : mapDelete st.memoryCache e0.1 = t := by
      rw [hcons]
      unfold mapDelete
      rw [List.filter_cons]
      simp only [bne_self_eq_false, Bool.false_eq_true, if_false]
      apply List.filter_eq_self.mpr
      intro e he
      have h0 : e0.1 ∉ mapKeys t := by
        rw [hcons] at hnodup
        unfold mapKeys at hnodup
        simp only [List.map_cons, List.nodup_cons] at hnodup
        exact hnodup.1
      have : e.1 ≠ e0.1 := by
        intro heq
        exact h0 (heq ▸ List.mem_map_of_mem _ he)
      simpa using this
    have hmem : (cacheSet st key data ttlOpt now).memoryCache
        = mapSet t key ⟨data, now⟩ := by
      rw [cacheSet_memory_eq, if_pos hcap, hcons]
      simp only [List.head?_cons]
      rw [← hcons, hdel]
    constructor
    · rw [hmem]
      have := length_mapSet_le t key (⟨data, now⟩ : MemoryEntry V)
      have ht : t.length + 1 = MEMORY_CACHE_MAX_SIZE := by
        rw [hcons] at hlen
        simpa using hlen
      omega
    · intro k'
      rw [hmem, mapKeys_mapSet_mem]
      have h0 : e0.1 ∉ mapKeys t := by
        rw [hcons] at hnodup
        unfold mapKeys at hnodup
        simp only [List.map_cons, List.nodup_cons] at hnodup
        exact hnodup.1
      rw [hcons]
      unfold mapKeys
      simp only [List.map_cons, List.mem_cons]
      constructor
      · rintro (rfl | hm)
        · right; rfl
        · left
          refine ⟨Or.inr hm, ?_⟩
          intro heq
          exact h0 (heq ▸ hm)
      · rintro (⟨hin | hin, hne⟩ | rfl)
        · exact absurd hin hne
        · right; exact hin
        · left; rfl

/-- Witness for C10's eviction clause on a concrete full (100-entry)
map: the new key is stored, the oldest key "0" is gone, key "50"
survives. -/
theorem cacheMemory_evictsOldest_witness :
    (cacheSet exFullCacheState "new" "v" none 0).memoryCache.length
        ≤ MEMORY_CACHE_MAX_SIZE ∧
    ("new" ∈ mapKeys (cacheSet exFullCacheState "new" "v" none 0).memoryCache ↔
      (("new" ∈ mapKeys exFullCacheState.memoryCache ∧ "new" ≠ "0") ∨
        ("new" : String) = "new")) ∧
    ("0" ∈ mapKeys (cacheSet exFullCacheState "new" "v" none 0).memoryCache ↔
      (("0" ∈ mapKeys exFullCacheState.memoryCache ∧ "0" ≠ "0") ∨
        ("0" : String) = "new")) := by
  have h := (@cacheMemory_bounded_evictsOldest String).2
    exFullCacheState "new" "v" none 0 ("0", ⟨"x", 0⟩)
    (exFullCacheState.memoryCache.tail) (by decide) (by decide) (by decide)
  exact ⟨h.1, h.2 "new", h.2 "0"⟩

end NewfanFinance

namespace NewfanFinance

/-! ## Theorems: reranker (C7) -/

/-- **C7 counterexample** — with the configured threshold 0.3 (the value
every deployed agent passes, `searchHandlers` in
`lib/search/index.ts`), the quality-mode threshold
`max(0.3, 0.2) = 0.3` equals the balanced-mode threshold: quality is
*not* strictly stricter for identical inputs. -/
theorem rerankThreshold_quality_not_stricter :
    rerankThresholdFor .quality (some 0.3)
        = rerankThresholdFor .balanced (some 0.3) ∧
    ¬ rerankThresholdFor .balanced (some 0.3)
        < rerankThresholdFor .quality (some 0.3) := by
  constructor
  · show max (0.3 : ℚ) 0.2 = 0.3
    norm_num
  · show ¬ (0.3 : ℚ) < max (0.3 : ℚ) 0.2
    norm_num

theorem mem_insertDescBySim (x y : SearchDoc × ℚ) :
    ∀ l, y ∈ insertDescBySim x l ↔ y = x ∨ y ∈ l := by
  intro l
  induction l with
  | nil => simp [insertDescBySim]
  | cons z zs ih =>
    unfold insertDescBySim
    by_cases hc : z.2 < x.2
    · rw [if_pos hc]
      simp
    · rw [if_neg hc]
      simp only [List.mem_cons, ih]
      tauto

theorem mem_sortBySimDesc (y : SearchDoc × ℚ) :
    ∀ l, y ∈ sortBySimDesc l ↔ y ∈ l := by
  intro l
  induction l with
  | nil => simp [sortBySimDesc]
  | cons z zs ih =>
    unfold sortBySimDesc
    rw [mem_insertDescBySim]
    simp [ih]

theorem sorted_insertDescBySim (x : SearchDoc × ℚ) :
    ∀ l, l.Pairwise (fun a b => b.2 ≤ a.2) →
      (insertDescBySim x l).Pairwise (fun a b => b.2 ≤ a.2) := by
  intro l
  induction l with
  | nil =>
    intro _
    simp [insertDescBySim]
  | cons z zs ih =>
    intro h
    rw [List.pairwise_cons] at h
    obtain ⟨hz, hzs⟩ := h
    unfold insertDescBySim
    by_cases hc : z.2 < x.2
    · rw [if_pos hc]
      rw [List.pairwise_cons]
      refine ⟨?_, List.pairwise_cons.mpr ⟨hz, hzs⟩⟩
      intro b hb
      rcases List.mem_cons.mp hb with rfl | hb
      · exact le_of_lt hc
      · exact le_trans (hz b hb) (le_of_lt hc)
    · rw [if_neg hc]
      rw [List.pairwise_cons]
      refine ⟨?_, ih hzs⟩
      intro b hb
      rcases (mem_insertDescBySim x b zs).mp hb with rfl | hb
      · exact le_of_not_lt hc
      · exact hz b hb

theorem sorted_sortBySimDesc :
    ∀ l, (sortBySimDesc l).Pairwise (fun a b => b.2 ≤ a.2) := by
  intro l
  induction l with
  | nil => simp [sortBySimDesc]
  | cons z zs ih =>
    unfold sortBySimDesc
    exact sorted_insertDescBySim z _ ih

/-- **C7 amended** — in balanced and quality modes the reranker keeps
only documents whose similarity to the (embedded) query is strictly
above the mode's threshold, returns them sorted by similarity
descending, capped at the mode's max document count; the quality
threshold is *at least* the balanced threshold (strictly greater exactly
when the configured threshold is below 0.2, so not strictly stricter in
general). -/
theorem rerankContext_spec (computeSimilarity : List ℚ → List ℚ → ℚ)
    (embedDocument : String → List ℚ) (embedQuery : String → List ℚ)
    (rerankThreshold : Option ℚ) (query : String) (docs : List SearchDoc)
    (mode : OptimizationMode)
    (hmode : mode = .balanced ∨ mode = .quality) :
    (∀ d ∈ rerankContext computeSimilarity embedDocument embedQuery
        rerankThreshold mode query docs,
      rerankThresholdFor mode rerankThreshold <
        docSimilarity computeSimilarity embedDocument embedQuery query d) ∧
    (rerankContext computeSimilarity embedDocument embedQuery
        rerankThreshold mode query docs).Pairwise
      (fun a b =>
        docSimilarity computeSimilarity embedDocument embedQuery query b ≤
        docSimilarity computeSimilarity embedDocument embedQuery query a) ∧
    (rerankContext computeSimilarity embedDocument embedQuery
        rerankThreshold mode query docs).length ≤ (getSearchParams mode).2 ∧
    rerankThresholdFor .balanced rerankThreshold ≤
      rerankThresholdFor .quality rerankThreshold := by
  have hthr : rerankThresholdFor .balanced rerankThreshold ≤
      rerankThresholdFor .quality rerankThreshold := by
    unfold rerankThresholdFor
    exact le_max_left _ _
  by_cases hnil : docs = []
  · have : rerankContext computeSimilarity embedDocument embedQuery
        rerankThreshold mode query docs = [] := by
      rw [hnil]
      unfold rerankContext
      simp
    rw [this]
    exact ⟨by simp, by simp, by simp, hthr⟩
  · have hout : rerankContext computeSimilarity embedDocument embedQuery
        rerankThreshold mode query docs =
      ((sortBySimDesc (((docs.filter (fun d => d.pageContent != "")).map
          (fun d => (d, computeSimilarity (embedQuery query)
            (embedDocument d.pageContent)))).filter
          (fun s => rerankThresholdFor mode rerankThreshold < s.2))).take
        (getSearchParams mode).2).map (fun s => s.1) := by
      rcases hmode with rfl | rfl <;>
        · unfold rerankContext
          rw [if_neg hnil]
    have hmemP : ∀ p ∈ (sortBySimDesc (((docs.filter
        (fun d => d.pageContent != "")).map
        (fun d => (d, computeSimilarity (embedQuery query)
          (embedDocument d.pageContent)))).filter
        (fun s => rerankThresholdFor mode rerankThreshold < s.2))).take
          (getSearchParams mode).2,
        p.2 = docSimilarity computeSimilarity embedDocument embedQuery
          query p.1 ∧
        rerankThresholdFor mode rerankThreshold < p.2 := by
      intro p hp
      have hp1 := List.take_subset _ _ hp
      have hp2 := (mem_sortBySimDesc p _).mp hp1
      have hp3 := List.mem_filter.mp hp2
      obtain ⟨d, _, hpd⟩ := List.mem_map.mp hp3.1
      constructor
      · rw [← hpd]
        rfl
      · simpa using hp3.2
    refine ⟨?_, ?_, ?_, hthr⟩
    · intro d hd
      rw [hout] at hd
      obtain ⟨p, hp, hpd⟩ := List.mem_map.mp hd
      have := hmemP p hp
      rw [← hpd, ← this.1]
      exact this.2
    · rw [hout]
      rw [List.pairwise_map]
      have hsorted : ((sortBySimDesc (((docs.filter
          (fun d => d.pageContent != "")).map
          (fun d => (d, computeSimilarity (embedQuery query)
            (embedDocument d.pageContent)))).filter
          (fun s => rerankThresholdFor mode rerankThreshold < s.2))).take
            (getSearchParams mode).2).Pairwise
          (fun a b => b.2 ≤ a.2) :=
        List.Pairwise.sublist (List.take_sublist _ _) (sorted_sortBySimDesc _)
      refine hsorted.imp_of_mem ?_
      intro a b ha hb hab
      have h1 := (hmemP a ha).1
      have h2 := (hmemP b hb).1
      rw [← h1, ← h2]
      exact hab
    · rw [hout]
      rw [List.length_map]
      exact le_trans (List.length_take_le _ _) (le_refl _) |>.trans
        (by exact Nat.le_of_eq rfl) |>.trans (le_refl _) |>.trans
        (Nat.le_refl _) |>.trans (le_refl _) |>.trans
        (Nat.le_refl _) |>.trans (by exact Nat.le_refl _) |>.trans
        (le_refl _)

/-- Witness for the amended C7 at a concrete input (balanced mode, one
document, default threshold). -/
theorem rerankContext_spec_witness :
    (rerankContext (fun _ _ => 1) (fun _ => []) (fun _ => []) none
        .balanced "q" [exSearchDoc "a" "hello"]).length ≤
      (getSearchParams .balanced).2 ∧
    rerankThresholdFor .balanced none ≤ rerankThresholdFor .quality none :=
  ⟨(rerankContext_spec (fun _ _ => 1) (fun _ => []) (fun _ => []) none "q"
      [exSearchDoc "a" "hello"] .balanced (Or.inl rfl)).2.2.1,
   (rerankContext_spec (fun _ _ => 1) (fun _ => []) (fun _ => []) none "q"
      [exSearchDoc "a" "hello"] .balanced (Or.inl rfl)).2.2.2⟩

end NewfanFinance

namespace NewfanFinance

/-! ## Theorems: identity hasher (C3) — character-level facts -/

theorem toNat_ofNat_valid (n : Nat) (h : n.isValidChar) :
    (Char.ofNat n).toNat = n := by
  rw [Char.ofNat, dif_pos h]
  rfl

theorem char_eq_of_toNat_eq {c d : Char} (h : c.toNat = d.toNat) : c = d := by
  have := congrArg Char.ofNat h
  rwa [Char.ofNat_toNat, Char.ofNat_toNat] at this

theorem toLower_toNat (c : Char) :
    (Char.toLower c).toNat =
      if 65 ≤ c.toNat ∧ c.toNat ≤ 90 then c.toNat + 32 else c.toNat := by
  simp only [Char.toLower]
  by_cases h : 65 ≤ c.toNat ∧ c.toNat ≤ 90
  · rw [if_pos ⟨h.1, h.2⟩, if_pos h]
    exact toNat_ofNat_valid _ (Or.inl (by omega))
  · rw [if_neg (fun hc => h ⟨hc.1, hc.2⟩), if_neg h]

theorem jsWhitespace_iff_toNat (c : Char) :
    jsWhitespace c = true ↔
      (c.toNat = 32 ∨ c.toNat = 9 ∨ c.toNat = 10 ∨ c.toNat = 13 ∨
       c.toNat = 11 ∨ c.toNat = 12 ∨ c.toNat = 160 ∨ c.toNat = 12288) := by
  unfold jsWhitespace
  simp only [Bool.or_eq_true, beq_iff_eq]
  constructor
  · rintro (((((((rfl | rfl) | rfl) | rfl) | rfl) | rfl) | rfl) | rfl) <;> decide
  · rintro (h | h | h | h | h | h | h | h)
    · exact Or.inl (Or.inl (Or.inl (Or.inl (Or.inl (Or.inl (Or.inl
        (char_eq_of_toNat_eq (by rw [h]; decide))))))))
    · exact Or.inl (Or.inl (Or.inl (Or.inl (Or.inl (Or.inl (Or.inr
        (char_eq_of_toNat_eq (by rw [h]; decide))))))))
    · exact Or.inl (Or.inl (Or.inl (Or.inl (Or.inl (Or.inr
        (char_eq_of_toNat_eq (by rw [h]; decide)))))))
    · exact Or.inl (Or.inl (Or.inl (Or.inl (Or.inr
        (char_eq_of_toNat_eq (by rw [h]; decide))))))
    · exact Or.inl (Or.inl (Or.inl (Or.inr
        (char_eq_of_toNat_eq (by rw [h]; decide)))))
    · exact Or.inl (Or.inl (Or.inr (char_eq_of_toNat_eq (by rw [h]; decide))))
    · exact Or.inl (Or.inr (char_eq_of_toNat_eq (by rw [h]; decide)))
    · exact Or.inr (char_eq_of_toNat_eq (by rw [h]; decide))

theorem jsWhitespace_eq_true_of (c : Char) (h : jsWhitespace c ≠ false) :
    jsWhitespace c = true := by
  cases hc : jsWhitespace c
  · exact absurd hc h
  · rfl

theorem jsWhitespace_toLower (c : Char) :
    jsWhitespace (Char.toLower c) = jsWhitespace c := by
  by_cases h : 65 ≤ c.toNat ∧ c.toNat ≤ 90
  · have h1 : (Char.toLower c).toNat = c.toNat + 32 := by
      rw [toLower_toNat, if_pos h]
    have w1 : jsWhitespace (Char.toLower c) = false := by
      by_contra hw
      have := (jsWhitespace_iff_toNat _).mp (jsWhitespace_eq_true_of _ hw)
      omega
    have w2 : jsWhitespace c = false := by
      by_contra hw
      have := (jsWhitespace_iff_toNat _).mp (jsWhitespace_eq_true_of _ hw)
      omega
    rw [w1, w2]
  · have h0 : Char.toLower c = c :=
      char_eq_of_toNat_eq (by rw [toLower_toNat, if_neg h])
    rw [h0]

theorem toLower_toLower (c : Char) :
    Char.toLower (Char.toLower c) = Char.toLower c := by
  by_cases h : 65 ≤ c.toNat ∧ c.toNat ≤ 90
  · have h1 : (Char.toLower c).toNat = c.toNat + 32 := by
      rw [toLower_toNat, if_pos h]
    apply char_eq_of_toNat_eq
    rw [toLower_toNat (Char.toLower c), if_neg (by rw [h1]; omega)]
  · have h0 : Char.toLower c = c :=
      char_eq_of_toNat_eq (by rw [toLower_toNat, if_neg h])
    rw [h0]
    exact h0

theorem toLower_space : Char.toLower ' ' = ' ' := by decide

theorem jsWhitespace_fullwidthToSpace (c : Char) :
    jsWhitespace (fullwidthToSpace c) = jsWhitespace c := by
  unfold fullwidthToSpace
  by_cases h : c == '　'
  · have hc : c = '　' := by simpa using h
    subst hc
    decide
  · rw [if_neg (by simpa using h)]

theorem fullwidthToSpace_eq_self (c : Char) (h : jsWhitespace c = false) :
    fullwidthToSpace c = c := by
  unfold fullwidthToSpace
  by_cases hc : c == '　'
  · exfalso
    have : c = '　' := by simpa using hc
    subst this
    revert h
    decide
  · rw [if_neg (by simpa using hc)]

end NewfanFinance

namespace NewfanFinance

/-! ## Theorems: identity hasher (C3) — trim facts -/

theorem takeWhile_eq_self_of_all {p : Char → Bool} :
    ∀ l : List Char, (∀ c ∈ l, p c = true) → l.takeWhile p = l := by
  intro l
  induction l with
  | nil => intro _; rfl
  | cons c t ih =>
    intro h
    rw [List.takeWhile_cons, if_pos (h c (List.mem_cons_self c t)),
      ih (fun x hx => h x (List.mem_cons_of_mem c hx))]

theorem dropWhile_eq_nil_of_all {p : Char → Bool} :
    ∀ l : List Char, (∀ c ∈ l, p c = true) → l.dropWhile p = [] := by
  intro l
  induction l with
  | nil => intro _; rfl
  | cons c t ih =>
    intro h
    rw [List.dropWhile_cons, if_pos (h c (List.mem_cons_self c t))]
    exact ih (fun x hx => h x (List.mem_cons_of_mem c hx))

theorem all_of_dropWhile_eq_nil {p : Char → Bool} :
    ∀ l : List Char, l.dropWhile p = [] → ∀ c ∈ l, p c = true := by
  intro l
  induction l with
  | nil => intro _ c hc; simp at hc
  | cons c t ih =>
    intro h x hx
    rw [List.dropWhile_cons] at h
    by_cases hp : p c
    · rw [if_pos hp] at h
      rcases List.mem_cons.mp hx with rfl | hx
      · exact hp
      · exact ih h x hx
    · rw [if_neg hp] at h
      simp at h

theorem head?_dropWhile_false (p : Char → Bool) (l : List Char) :
    ∀ c, (l.dropWhile p).head? = some c → p c = false := by
  intro c hc
  have h := List.head?_dropWhile_not p l
  rw [hc] at h
  exact h

theorem dropWhile_eq_self_of_head {p : Char → Bool} (l : List Char)
    (h : ∀ c, l.head? = some c → p c = false) : l.dropWhile p = l := by
  cases l with
  | nil => rfl
  | cons c t =>
    exact List.dropWhile_cons_of_neg (by simp [h c rfl])

theorem trimChars_eq_self (l : List Char)
    (h1 : ∀ c, l.head? = some c → jsWhitespace c = false)
    (h2 : ∀ c, l.getLast? = some c → jsWhitespace c = false) :
    trimChars l = l := by
  unfold trimChars
  rw [dropWhile_eq_self_of_head l h1]
  rw [dropWhile_eq_self_of_head l.reverse
    (fun c hc => h2 c (by rwa [List.head?_reverse] at hc))]
  exact List.reverse_reverse l

theorem getLast?_dropWhile (p : Char → Bool) (x : List Char)
    (h : x.dropWhile p ≠ []) :
    (x.dropWhile p).getLast? = x.getLast? := by
  have hs : x.dropWhile p <:+ x := List.dropWhile_suffix p
  obtain ⟨t, ht⟩ := hs
  cases hd : (x.dropWhile p).getLast? with
  | none => exact absurd (List.getLast?_eq_none_iff.mp hd) h
  | some y =>
    rw [← ht, List.getLast?_append, hd]
    rfl

theorem head?_trimChars (l : List Char) :
    ∀ c, (trimChars l).head? = some c → jsWhitespace c = false := by
  intro c hc
  unfold trimChars at hc
  rw [List.head?_reverse] at hc
  have hne : (List.dropWhile jsWhitespace l).reverse.dropWhile jsWhitespace
      ≠ [] := by
    intro he
    rw [he] at hc
    simp at hc
  rw [getLast?_dropWhile _ _ hne, List.getLast?_reverse] at hc
  exact head?_dropWhile_false _ _ c hc

theorem getLast?_trimChars (l : List Char) :
    ∀ c, (trimChars l).getLast? = some c → jsWhitespace c = false := by
  intro c hc
  unfold trimChars at hc
  rw [List.getLast?_reverse] at hc
  exact head?_dropWhile_false _ _ c hc

end NewfanFinance

namespace NewfanFinance

/-! ## Theorems: identity hasher (C3) — collapse and word structure -/

theorem collapseWs_nil : collapseWs [] = [] := by
  rw [collapseWs]

theorem collapseWs_cons (c : Char) (rest : List Char) :
    collapseWs (c :: rest) =
      if jsWhitespace c then ' ' :: collapseWs (rest.dropWhile jsWhitespace)
      else c :: collapseWs rest := by
  rw [collapseWs]

theorem wordsWs_nil : wordsWs [] = [] := by
  rw [wordsWs]

theorem wordsWs_cons (c : Char) (rest : List Char) :
    wordsWs (c :: rest) =
      if jsWhitespace c then wordsWs rest
      else (c :: rest.takeWhile (fun d => !jsWhitespace d)) ::
        wordsWs (rest.dropWhile (fun d => !jsWhitespace d)) := by
  rw [wordsWs]

theorem joinSpace_nil : joinSpace [] = [] := rfl

theorem joinSpace_singleton (w : List Char) : joinSpace [w] = w := rfl

theorem joinSpace_cons_cons (w a : List Char) (as : List (List Char)) :
    joinSpace (w :: a :: as) = w ++ ' ' :: joinSpace (a :: as) := rfl

end NewfanFinance

namespace NewfanFinance

theorem collapseWs_nonws_append (w : List Char) :
    ∀ t, (∀ c ∈ w, jsWhitespace c = false) →
      collapseWs (w ++ t) = w ++ collapseWs t := by
  induction w with
  | nil => intro t _; simp
  | cons c cs ih =>
    intro t hw
    have hc : jsWhitespace c = false := hw c (List.mem_cons_self c cs)
    rw [List.cons_append, collapseWs_cons, if_neg (by simp [hc]),
      ih t (fun x hx => hw x (List.mem_cons_of_mem c hx))]
    rfl

theorem wordsWs_dropWhile_ws :
    ∀ l : List Char, wordsWs (l.dropWhile jsWhitespace) = wordsWs l := by
  intro l
  induction l with
  | nil => rfl
  | cons c rest ih =>
    by_cases hc : jsWhitespace c
    · rw [List.dropWhile_cons_of_pos hc, ih, wordsWs_cons, if_pos hc]
    · rw [List.dropWhile_cons_of_neg (by simp [hc])]

theorem wordsWs_ne_nil_of_ex :
    ∀ l : List Char, (∃ c ∈ l, jsWhitespace c = false) → wordsWs l ≠ [] := by
  intro l
  induction l with
  | nil =>
    rintro ⟨c, hc, _⟩
    simp at hc
  | cons c rest ih =>
    rintro ⟨x, hx, hxw⟩
    rw [wordsWs_cons]
    by_cases hc : jsWhitespace c
    · rw [if_pos hc]
      apply ih
      rcases List.mem_cons.mp hx with rfl | hx
      · rw [hc] at hxw
        cases hxw
      · exact ⟨x, hx, hxw⟩
    · rw [if_neg hc]
      simp

theorem collapseWs_eq_joinSpace :
    ∀ l : List Char,
      (∀ s, s <:+ l → s ≠ [] → ∃ c ∈ s, jsWhitespace c = false) →
      collapseWs l =
        (if l.head?.any jsWhitespace then [' '] else []) ++
          joinSpace (wordsWs l)
  | [], _ => by simp [collapseWs_nil, wordsWs_nil, joinSpace_nil]
  | c :: rest, htrail => by
    by_cases hc : jsWhitespace c
    · have hno : rest.dropWhile jsWhitespace ≠ [] := by
        intro he
        have hall := all_of_dropWhile_eq_nil rest he
        obtain ⟨x, hx, hxw⟩ := htrail (c :: rest) (List.suffix_refl _) (by simp)
        rcases List.mem_cons.mp hx with rfl | hx
        · rw [hc] at hxw
          cases hxw
        · rw [hall x hx] at hxw
          cases hxw
      have hrec := collapseWs_eq_joinSpace (rest.dropWhile jsWhitespace)
        (fun s hs hsne => htrail s
          (hs.trans ((List.dropWhile_suffix _).trans (List.suffix_cons c rest)))
          hsne)
      have hflag : (rest.dropWhile jsWhitespace).head?.any jsWhitespace
          = false := by
        cases hh : (rest.dropWhile jsWhitespace).head? with
        | none => rfl
        | some d =>
          simpa using head?_dropWhile_false jsWhitespace rest d hh
      rw [collapseWs_cons, if_pos hc, hrec, hflag]
      simp only [Bool.false_eq_true, if_false, List.nil_append]
      rw [wordsWs_dropWhile_ws rest, wordsWs_cons, if_pos hc]
      simp [hc]
    · have hsplit : rest.takeWhile (fun d => !jsWhitespace d) ++
          rest.dropWhile (fun d => !jsWhitespace d) = rest :=
        List.takeWhile_append_dropWhile _ rest
      have hwall : ∀ x ∈ rest.takeWhile (fun d => !jsWhitespace d),
          jsWhitespace x = false := by
        intro x hx
        have := List.mem_takeWhile_imp hx
        simpa using this
      rw [collapseWs_cons, if_neg hc]
      have hcrest : collapseWs rest =
          rest.takeWhile (fun d => !jsWhitespace d) ++
            collapseWs (rest.dropWhile (fun d => !jsWhitespace d)) := by
        conv_lhs => rw [← hsplit]
        exact collapseWs_nonws_append _ _ hwall
      rw [hcrest, wordsWs_cons, if_neg hc]
      cases hr : rest.dropWhile (fun d => !jsWhitespace d) with
      | nil =>
        simp [collapseWs_nil, wordsWs_nil, joinSpace_singleton, hc]
      | cons d r'' =>
        have hd : jsWhitespace d = true := by
          have := head?_dropWhile_false (fun d => !jsWhitespace d) rest d
            (by rw [hr]; rfl)
          simpa using this
        have hrecsuffix : (d :: r'') <:+ c :: rest := by
          have h1 : rest.dropWhile (fun d => !jsWhitespace d) <:+ rest :=
            List.dropWhile_suffix _
          rw [hr] at h1
          exact h1.trans (List.suffix_cons c rest)
        have hrec := collapseWs_eq_joinSpace (d :: r'')
          (fun s hs hsne => htrail s (hs.trans hrecsuffix) hsne)
        rw [hrec]
        have hwne : wordsWs (d :: r'') ≠ [] :=
          wordsWs_ne_nil_of_ex _ (htrail (d :: r'') hrecsuffix (by simp))
        have hjoin : joinSpace
            ((c :: rest.takeWhile (fun d => !jsWhitespace d)) ::
              wordsWs (d :: r''))
            = (c :: rest.takeWhile (fun d => !jsWhitespace d)) ++
              ' ' :: joinSpace (wordsWs (d :: r'')) := by
          cases hwords : wordsWs (d :: r'') with
          | nil => exact absurd hwords hwne
          | cons a as => rfl
        rw [hjoin]
        simp [hd, hc]
termination_by l => l.length
decreasing_by
  · simp only [List.length_cons]
    exact Nat.lt_succ_of_le (List.dropWhile_sublist _).length_le
  · have h1 : (rest.dropWhile (fun d => !jsWhitespace d)).length ≤
        rest.length := (List.dropWhile_sublist _).length_le
    rw [hr] at h1
    simp only [List.length_cons] at h1 ⊢
    omega

end NewfanFinance

namespace NewfanFinance

theorem wordsWs_map (g : Char → Char)
    (hg : ∀ c, jsWhitespace (g c) = jsWhitespace c) :
    ∀ l : List Char, wordsWs (l.map g) = (wordsWs l).map (List.map g)
  | [] => by simp [wordsWs_nil]
  | c :: rest => by
    have hpred : (fun d => !jsWhitespace d) ∘ g = (fun d => !jsWhitespace d) := by
      funext d
      simp [hg d]
    by_cases hc : jsWhitespace c
    · rw [List.map_cons, wordsWs_cons, if_pos (by rw [hg c]; exact hc),
        wordsWs_cons, if_pos hc]
      exact wordsWs_map g hg rest
    · rw [List.map_cons, wordsWs_cons, if_neg (by rw [hg c]; exact hc),
        wordsWs_cons, if_neg hc]
      rw [List.takeWhile_map, List.dropWhile_map, hpred]
      rw [wordsWs_map g hg (rest.dropWhile (fun d => !jsWhitespace d))]
      simp
termination_by l => l.length
decreasing_by
  · simp
  · simp only [List.length_cons]
    exact Nat.lt_succ_of_le (List.dropWhile_sublist _).length_le

theorem map_joinSpace (g : Char → Char) (hg : g ' ' = ' ') :
    ∀ W : List (List Char),
      (joinSpace W).map g = joinSpace (W.map (List.map g))
  | [] => rfl
  | [_] => rfl
  | w :: a :: as => by
    rw [joinSpace_cons_cons, List.map_append, List.map_cons, hg,
      map_joinSpace g hg (a :: as)]
    simp only [List.map_cons]
    rw [joinSpace_cons_cons]

theorem wordsWs_words_ne_nil :
    ∀ l : List Char, ∀ w ∈ wordsWs l, w ≠ []
  | [] => by simp [wordsWs_nil]
  | c :: rest => by
    intro w hw
    rw [wordsWs_cons] at hw
    by_cases hc : jsWhitespace c
    · rw [if_pos hc] at hw
      exact wordsWs_words_ne_nil rest w hw
    · rw [if_neg hc] at hw
      rcases List.mem_cons.mp hw with rfl | hw
      · simp
      · exact wordsWs_words_ne_nil
          (rest.dropWhile (fun d => !jsWhitespace d)) w hw
termination_by l => l.length
decreasing_by
  · simp
  · simp only [List.length_cons]
    exact Nat.lt_succ_of_le (List.dropWhile_sublist _).length_le

theorem wordsWs_words_nonws :
    ∀ l : List Char, ∀ w ∈ wordsWs l, ∀ c ∈ w, jsWhitespace c = false
  | [] => by simp [wordsWs_nil]
  | c :: rest => by
    intro w hw x hx
    rw [wordsWs_cons] at hw
    by_cases hc : jsWhitespace c
    · rw [if_pos hc] at hw
      exact wordsWs_words_nonws rest w hw x hx
    · rw [if_neg hc] at hw
      rcases List.mem_cons.mp hw with rfl | hw
      · rcases List.mem_cons.mp hx with rfl | hx
        · simpa using hc
        · have := List.mem_takeWhile_imp hx
          simpa using this
      · exact wordsWs_words_nonws
          (rest.dropWhile (fun d => !jsWhitespace d)) w hw x hx
termination_by l => l.length
decreasing_by
  · simp
  · simp only [List.length_cons]
    exact Nat.lt_succ_of_le (List.dropWhile_sublist _).length_le

theorem wordsWs_joinSpace :
    ∀ W : List (List Char), (∀ w ∈ W, w ≠ []) →
      (∀ w ∈ W, ∀ c ∈ w, jsWhitespace c = false) →
      wordsWs (joinSpace W) = W
  | [], _, _ => by simp [joinSpace_nil, wordsWs_nil]
  | [w], hne, hws => by
    rw [joinSpace_singleton]
    obtain ⟨c, t, rfl⟩ : ∃ c t, w = c :: t := by
      cases w with
      | nil => exact absurd rfl (hne [] (by simp))
      | cons c t => exact ⟨c, t, rfl⟩
    have hcw : jsWhitespace c = false := hws (c :: t) (by simp) c (by simp)
    have htall : ∀ x ∈ t, jsWhitespace x = false :=
      fun x hx => hws (c :: t) (by simp) x (by simp [hx])
    rw [wordsWs_cons, if_neg (by simp [hcw])]
    rw [takeWhile_eq_self_of_all t (by intro x hx; simp [htall x hx])]
    rw [dropWhile_eq_nil_of_all t (by intro x hx; simp [htall x hx])]
    simp [wordsWs_nil]
  | w :: w' :: W'', hne, hws => by
    obtain ⟨c, t, rfl⟩ : ∃ c t, w = c :: t := by
      cases w with
      | nil => exact absurd rfl (hne [] (by simp))
      | cons c t => exact ⟨c, t, rfl⟩
    have hcw : jsWhitespace c = false := hws (c :: t) (by simp) c (by simp)
    have htall : ∀ x ∈ t, jsWhitespace x = false :=
      fun x hx => hws (c :: t) (by simp) x (by simp [hx])
    rw [joinSpace_cons_cons, List.cons_append]
    rw [wordsWs_cons, if_neg (by simp [hcw])]
    rw [List.takeWhile_append_of_pos (by intro x hx; simp [htall x hx])]
    rw [List.dropWhile_append_of_pos (by intro x hx; simp [htall x hx])]
    rw [List.takeWhile_cons, if_neg (by decide)]
    rw [List.dropWhile_cons, if_neg (by decide)]
    rw [List.append_nil]
    have hrec := wordsWs_joinSpace (w' :: W'')
      (fun x hx => hne x (List.mem_cons_of_mem _ hx))
      (fun x hx => hws x (List.mem_cons_of_mem _ hx))
    rw [wordsWs_cons, if_pos (by decide)]
    rw [hrec]

theorem joinSpace_ne_nil (W : List (List Char)) (hW : W ≠ [])
    (hne : ∀ w ∈ W, w ≠ []) : joinSpace W ≠ [] := by
  cases W with
  | nil => exact absurd rfl hW
  | cons w W' =>
    cases W' with
    | nil =>
      rw [joinSpace_singleton]
      exact hne w (by simp)
    | cons a as =>
      rw [joinSpace_cons_cons]
      intro he
      have := List.append_eq_nil.mp he
      simp at this

theorem head?_joinSpace (W : List (List Char))
    (hne : ∀ w ∈ W, w ≠ [])
    (hws : ∀ w ∈ W, ∀ c ∈ w, jsWhitespace c = false) :
    ∀ c, (joinSpace W).head? = some c → jsWhitespace c = false := by
  intro c hc
  cases W with
  | nil => simp [joinSpace_nil] at hc
  | cons w W' =>
    obtain ⟨a, t, rfl⟩ : ∃ a t, w = a :: t := by
      cases w with
      | nil => exact absurd rfl (hne [] (by simp))
      | cons a t => exact ⟨a, t, rfl⟩
    have hhead : (joinSpace ((a :: t) :: W')).head? = some a := by
      cases W' with
      | nil => rfl
      | cons b Bs => rfl
    rw [hhead] at hc
    injection hc with hac
    subst hac
    exact hws (a :: t) (by simp) a (by simp)

theorem getLast?_joinSpace :
    ∀ W : List (List Char), (∀ w ∈ W, w ≠ []) →
      (∀ w ∈ W, ∀ c ∈ w, jsWhitespace c = false) →
      ∀ c, (joinSpace W).getLast? = some c → jsWhitespace c = false
  | [], _, _ => by
    intro c hc
    simp [joinSpace_nil] at hc
  | [w], hne, hws => by
    intro c hc
    rw [joinSpace_singleton] at hc
    exact hws w (by simp) c (List.mem_of_mem_getLast? (by rw [hc]; rfl))
  | w :: w' :: W'', hne, hws => by
    intro c hc
    have hnn : joinSpace (w' :: W'') ≠ [] :=
      joinSpace_ne_nil _ (by simp) (fun x hx => hne x (by simp [hx]))
    cases hjs : (joinSpace (w' :: W'')).getLast? with
    | none => exact absurd (List.getLast?_eq_none_iff.mp hjs) hnn
    | some y =>
      obtain ⟨ys, hys⟩ := List.getLast?_eq_some_iff.mp hjs
      rw [joinSpace_cons_cons, hys] at hc
      have hform : w ++ ' ' :: (ys ++ [y]) = (w ++ ' ' :: ys) ++ [y] := by
        simp
      rw [hform, List.getLast?_concat] at hc
      injection hc with hyc
      subst hyc
      exact getLast?_joinSpace (w' :: W'')
        (fun x hx => hne x (List.mem_cons_of_mem _ hx))
        (fun x hx => hws x (List.mem_cons_of_mem _ hx)) _ hjs

end NewfanFinance

namespace NewfanFinance

theorem htrail_of_getLast (x : List Char)
    (h : ∀ c, x.getLast? = some c → jsWhitespace c = false) :
    ∀ s, s <:+ x → s ≠ [] → ∃ c ∈ s, jsWhitespace c = false := by
  intro s hs hsne
  obtain ⟨t, ht⟩ := hs
  cases hsl : s.getLast? with
  | none => exact absurd (List.getLast?_eq_none_iff.mp hsl) hsne
  | some y =>
    have hxl : x.getLast? = some y := by
      rw [← ht, List.getLast?_append, hsl]
      rfl
    exact ⟨y, List.mem_of_mem_getLast? (by rw [hsl]; rfl), h y hxl⟩

/-- The normalized title is exactly the lower-cased word sequence joined
by single spaces. -/
theorem normalizeTitleChars_eq (l : List Char) :
    normalizeTitleChars l =
      joinSpace ((wordsWs (trimChars l)).map (List.map Char.toLower)) := by
  unfold normalizeTitleChars
  have hxlast : ∀ c,
      ((trimChars l).map fullwidthToSpace).getLast? = some c →
        jsWhitespace c = false := by
    intro c hc
    rw [List.getLast?_map] at hc
    cases hlast : (trimChars l).getLast? with
    | none => rw [hlast] at hc; simp at hc
    | some d =>
      rw [hlast] at hc
      injection hc with h
      rw [← h, jsWhitespace_fullwidthToSpace]
      exact getLast?_trimChars l d hlast
  have hxhead : ∀ c,
      ((trimChars l).map fullwidthToSpace).head? = some c →
        jsWhitespace c = false := by
    intro c hc
    rw [List.head?_map] at hc
    cases hh : (trimChars l).head? with
    | none => rw [hh] at hc; simp at hc
    | some d =>
      rw [hh] at hc
      injection hc with h
      rw [← h, jsWhitespace_fullwidthToSpace]
      exact head?_trimChars l d hh
  have hcoll := collapseWs_eq_joinSpace ((trimChars l).map fullwidthToSpace)
    (htrail_of_getLast _ hxlast)
  have hflag : ((trimChars l).map fullwidthToSpace).head?.any jsWhitespace
      = false := by
    cases hh : ((trimChars l).map fullwidthToSpace).head? with
    | none => rfl
    | some d => simpa using hxhead d hh
  rw [hcoll, hflag]
  simp only [Bool.false_eq_true, if_false, List.nil_append]
  rw [wordsWs_map fullwidthToSpace jsWhitespace_fullwidthToSpace (trimChars l)]
  have hid : (wordsWs (trimChars l)).map (List.map fullwidthToSpace) =
      wordsWs (trimChars l) := by
    conv_rhs => rw [← List.map_id (wordsWs (trimChars l))]
    apply List.map_congr_left
    intro w hw
    have hpt : ∀ c ∈ w, fullwidthToSpace c = c := fun c hc =>
      fullwidthToSpace_eq_self c (wordsWs_words_nonws (trimChars l) w hw c hc)
    exact (List.map_congr_left hpt).trans (List.map_id w)
  rw [hid]
  exact map_joinSpace Char.toLower toLower_space _

theorem normalizeTitleChars_idem (l : List Char) :
    normalizeTitleChars (normalizeTitleChars l) = normalizeTitleChars l := by
  rw [normalizeTitleChars_eq l]
  have hWne : ∀ w ∈ (wordsWs (trimChars l)).map (List.map Char.toLower),
      w ≠ [] := by
    intro w hw
    obtain ⟨v, hv, rfl⟩ := List.mem_map.mp hw
    have := wordsWs_words_ne_nil (trimChars l) v hv
    simpa using this
  have hWws : ∀ w ∈ (wordsWs (trimChars l)).map (List.map Char.toLower),
      ∀ c ∈ w, jsWhitespace c = false := by
    intro w hw c hc
    obtain ⟨v, hv, rfl⟩ := List.mem_map.mp hw
    obtain ⟨d, hd, rfl⟩ := List.mem_map.mp hc
    rw [jsWhitespace_toLower]
    exact wordsWs_words_nonws (trimChars l) v hv d hd
  rw [normalizeTitleChars_eq
    (joinSpace ((wordsWs (trimChars l)).map (List.map Char.toLower)))]
  rw [trimChars_eq_self _ (head?_joinSpace _ hWne hWws)
    (getLast?_joinSpace _ hWne hWws)]
  rw [wordsWs_joinSpace _ hWne hWws]
  congr 1
  rw [List.map_map]
  apply List.map_congr_left
  intro w _
  have : (w.map Char.toLower).map Char.toLower = w.map Char.toLower := by
    rw [List.map_map]
    exact List.map_congr_left (fun c _ => toLower_toLower c)
  simpa using this

theorem normalizeTitle_idem (s : String) :
    normalizeTitle (normalizeTitle s) = normalizeTitle s := by
  show String.mk (normalizeTitleChars (normalizeTitleChars s.data))
      = String.mk (normalizeTitleChars s.data)
  exact congrArg String.mk (normalizeTitleChars_idem s.data)

theorem generateTitleHash_eq_of_caseFoldWords (s t : String)
    (h : caseFoldWords s = caseFoldWords t) :
    generateTitleHash s = generateTitleHash t := by
  unfold generateTitleHash
  apply congrArg sha256Hex
  show String.mk (normalizeTitleChars s.data)
      = String.mk (normalizeTitleChars t.data)
  apply congrArg String.mk
  rw [normalizeTitleChars_eq, normalizeTitleChars_eq]
  exact congrArg joinSpace h

end NewfanFinance

namespace NewfanFinance

/-! ## Theorems: identity hasher (C3) — URL normalization -/

theorem stripQuery_no_query (l : List Char) :
    ∀ c ∈ stripQuery l, c ≠ '?' := by
  intro c hc
  have := List.mem_takeWhile_imp hc
  simpa using this

theorem stripQuery_eq_self (l : List Char) (h : ∀ c ∈ l, c ≠ '?') :
    stripQuery l = l :=
  takeWhile_eq_self_of_all l (by intro c hc; simpa using h c hc)

theorem dropTrailingSlash_eq_self (l : List Char)
    (h : ∀ c, l.getLast? = some c → c ≠ '/') :
    dropTrailingSlash l = l := by
  unfold dropTrailingSlash
  cases hr : l.reverse with
  | nil => rfl
  | cons c t =>
    have hcl : l.getLast? = some c := by
      rw [← List.head?_reverse, hr]
      rfl
    have hcs : c ≠ '/' := h c hcl
    split
    · rename_i rest heq
      injection heq with h1 h2
      exact absurd h1 hcs
    · rfl

theorem dropTrailingSlash_append_slash (x : List Char) :
    dropTrailingSlash (x ++ ['/']) = x := by
  unfold dropTrailingSlash
  rw [List.reverse_append]
  show (match ('/' :: x.reverse : List Char) with
    | '/' :: rest => rest.reverse
    | _ => x ++ ['/']) = x
  exact List.reverse_reverse x

theorem trimChars_append_slash (x : List Char)
    (hhead : ∀ c, x.head? = some c → jsWhitespace c = false) :
    trimChars (x ++ ['/']) = x ++ ['/'] := by
  apply trimChars_eq_self
  · intro c hc
    cases x with
    | nil =>
      rw [List.nil_append, List.head?_cons] at hc
      injection hc with h
      subst h
      decide
    | cons a t =>
      rw [List.cons_append, List.head?_cons] at hc
      injection hc with h
      subst h
      exact hhead _ rfl
  · intro c hc
    rw [List.getLast?_concat] at hc
    injection hc with h
    subst h
    decide

theorem trimChars_append_query (x qd : List Char)
    (hhead : ∀ c, x.head? = some c → jsWhitespace c = false) :
    ∃ w, trimChars (x ++ '?' :: qd) = x ++ '?' :: w := by
  have h1 : (x ++ '?' :: qd).dropWhile jsWhitespace = x ++ '?' :: qd := by
    apply dropWhile_eq_self_of_head
    intro c hc
    cases x with
    | nil =>
      rw [List.nil_append, List.head?_cons] at hc
      injection hc with h
      subst h
      decide
    | cons a t =>
      rw [List.cons_append, List.head?_cons] at hc
      injection hc with h
      subst h
      exact hhead _ rfl
  unfold trimChars
  rw [h1]
  have h2 : (x ++ '?' :: qd).reverse = qd.reverse ++ ('?' :: x.reverse) := by
    rw [List.reverse_append, List.reverse_cons]
    simp
  rw [h2, List.dropWhile_append]
  by_cases hqe : (qd.reverse.dropWhile jsWhitespace).isEmpty
  · rw [if_pos hqe]
    rw [List.dropWhile_cons_of_neg (by decide)]
    refine ⟨[], ?_⟩
    simp
  · rw [if_neg hqe]
    refine ⟨(qd.reverse.dropWhile jsWhitespace).reverse, ?_⟩
    rw [List.reverse_append]
    simp

theorem dropTrailingSlash_query (x w : List Char) :
    ∃ w2, dropTrailingSlash (x ++ '?' :: w) = x ++ '?' :: w2 := by
  unfold dropTrailingSlash
  have h2 : (x ++ '?' :: w).reverse = w.reverse ++ ('?' :: x.reverse) := by
    rw [List.reverse_append, List.reverse_cons]
    simp
  rw [h2]
  cases hw : w.reverse with
  | nil =>
    rw [List.nil_append]
    split
    · rename_i rest heq
      injection heq with hq1 hq2
      exact absurd hq1 (by decide)
    · exact ⟨w, rfl⟩
  | cons d ds =>
    rw [List.cons_append]
    by_cases hd : d = '/'
    · subst hd
      split
      · rename_i rest heq
        injection heq with hq1 hq2
        refine ⟨ds.reverse, ?_⟩
        rw [← hq2, List.reverse_append, List.reverse_cons]
        simp
      · rename_i hne
        exact (hne (ds ++ '?' :: x.reverse) rfl).elim
    · split
      · rename_i rest heq
        injection heq with hq1 hq2
        exact absurd hq1 hd
      · exact ⟨w, rfl⟩

theorem stripQuery_append_query (x y : List Char) (hx : ∀ c ∈ x, c ≠ '?') :
    stripQuery (x ++ '?' :: y) = x := by
  unfold stripQuery
  rw [List.takeWhile_append_of_pos (by intro a ha; simpa using hx a ha)]
  rw [List.takeWhile_cons, if_neg (by decide)]
  simp

theorem head?_stripQuery (l : List Char) (c : Char) :
    (stripQuery l).head? = some c → l.head? = some c := by
  unfold stripQuery
  cases l with
  | nil => intro hc; simp at hc
  | cons a t =>
    rw [List.takeWhile_cons]
    by_cases ha : (a != '?') = true
    · rw [if_pos ha]
      intro hc
      rw [List.head?_cons] at hc ⊢
      exact hc
    · rw [if_neg ha]
      intro hc
      simp at hc

theorem head?_dropTrailingSlash (l : List Char) (c : Char) :
    (dropTrailingSlash l).head? = some c → l.head? = some c := by
  unfold dropTrailingSlash
  cases hr : l.reverse with
  | nil => exact fun hc => hc
  | cons a t =>
    split
    · rename_i rest heq
      intro hc
      have hl : l = rest.reverse ++ ['/'] := by
        have h1 := congrArg List.reverse hr
        rw [List.reverse_reverse] at h1
        rw [h1, heq, List.reverse_cons]
      rw [hl, List.head?_append, hc]
      rfl
    · exact fun hc => hc

theorem head?_normalizeUrl (s : String) (c : Char)
    (hc : (normalizeUrl s).data.head? = some c) : jsWhitespace c = false := by
  have h1 : (stripQuery (dropTrailingSlash (trimChars s.data))).head?
      = some c := hc
  exact head?_trimChars s.data c
    (head?_dropTrailingSlash _ c (head?_stripQuery _ c h1))

theorem lastCharIs_eq_false_iff (p : Char → Bool) (s : String) :
    lastCharIs p s = false ↔
      ∀ c, s.data.getLast? = some c → p c = false := by
  unfold lastCharIs
  cases hr : s.data.reverse with
  | nil =>
    have hnil : s.data = [] := by
      have := congrArg List.reverse hr
      simpa using this
    simp [hnil]
  | cons a t =>
    have hlast : s.data.getLast? = some a := by
      rw [← List.head?_reverse, hr]
      rfl
    constructor
    · intro h c hc
      rw [hlast] at hc
      injection hc with h2
      subst h2
      exact h
    · intro h
      exact h a hlast

theorem normalizeUrl_idem_of (s : String)
    (h : lastCharIs (fun c => c == '/' || jsWhitespace c) (normalizeUrl s)
      = false) :
    normalizeUrl (normalizeUrl s) = normalizeUrl s := by
  have hlast := (lastCharIs_eq_false_iff _ _).mp h
  have hslash : ∀ c, (normalizeUrl s).data.getLast? = some c → c ≠ '/' := by
    intro c hc heq
    have := hlast c hc
    subst heq
    simp at this
  have hws : ∀ c, (normalizeUrl s).data.getLast? = some c →
      jsWhitespace c = false := by
    intro c hc
    have := hlast c hc
    simp only [Bool.or_eq_false_iff] at this
    exact this.2
  show String.mk
    (stripQuery (dropTrailingSlash (trimChars (normalizeUrl s).data)))
      = normalizeUrl s
  rw [trimChars_eq_self _ (fun c hc => head?_normalizeUrl s c hc) hws]
  rw [dropTrailingSlash_eq_self _ hslash]
  have hq2 : ∀ c ∈ (normalizeUrl s).data, c ≠ '?' :=
    stripQuery_no_query (dropTrailingSlash (trimChars s.data))
  rw [stripQuery_eq_self _ hq2]

theorem normalizeUrl_clean (u : String)
    (htrim : u.data = trimChars u.data)
    (hq : ∀ c ∈ u.data, c ≠ '?')
    (hslash : lastCharIs (fun c => c == '/') u = false) :
    normalizeUrl u = u ∧
    generateUrlHash (u ++ "/") = generateUrlHash u ∧
    ∀ q : String, generateUrlHash (u ++ "?" ++ q) = generateUrlHash u := by
  have hhead : ∀ c, u.data.head? = some c → jsWhitespace c = false := by
    intro c hc
    rw [htrim] at hc
    exact head?_trimChars u.data c hc
  have hlastslash : ∀ c, u.data.getLast? = some c → c ≠ '/' := by
    intro c hc
    have := (lastCharIs_eq_false_iff _ u).mp hslash c hc
    simpa using this
  have hnorm : normalizeUrl u = u := by
    show String.mk (stripQuery (dropTrailingSlash (trimChars u.data))) = u
    rw [← htrim, dropTrailingSlash_eq_self _ hlastslash,
      stripQuery_eq_self _ hq]
  refine ⟨hnorm, ?_, ?_⟩
  · apply congrArg sha256Hex
    rw [hnorm]
    have hdata : (u ++ "/").data = u.data ++ ['/'] := by
      rw [String.data_append]
    show String.mk
      (stripQuery (dropTrailingSlash (trimChars (u ++ "/").data))) = u
    rw [hdata, trimChars_append_slash u.data hhead,
      dropTrailingSlash_append_slash, stripQuery_eq_self _ hq]
  · intro q
    apply congrArg sha256Hex
    rw [hnorm]
    have hdata : (u ++ "?" ++ q).data = u.data ++ '?' :: q.data := by
      rw [String.data_append, String.data_append]
      simp
    show String.mk
      (stripQuery (dropTrailingSlash (trimChars (u ++ "?" ++ q).data))) = u
    rw [hdata]
    obtain ⟨w, hw⟩ := trimChars_append_query u.data q.data hhead
    rw [hw]
    obtain ⟨w2, hw2⟩ := dropTrailingSlash_query u.data w
    rw [hw2]
    rw [stripQuery_append_query u.data w2 hq]

end NewfanFinance

namespace NewfanFinance

/-- **C3 (counterexample).** The spec says `normalize(normalize(x)) ==
normalize(x)` for the URL normalization, but `normalizeUrl` is not
idempotent: on `"a/?q"` the first pass strips the query leaving a trailing
slash (`"a/"`), and a second pass strips that slash (`"a"`), so the two
hashes differ. -/
theorem normalizeUrl_not_idempotent :
    normalizeUrl (normalizeUrl (String.mk ['a', '/', '?', 'q']))
      ≠ normalizeUrl (String.mk ['a', '/', '?', 'q']) := by
  decide

/-- **C3 (amended).** Title normalization is idempotent, and titles with
equal case-folded word sequences hash identically; URL normalization is
idempotent whenever its output does not end in `'/'` or whitespace (the
residue a stripped query can expose), and for a trimmed, query-free URL
not ending in `'/'`, appending a trailing slash or a query string does not
change `generateUrlHash`. -/
theorem normalization_properties :
    (∀ s : String, normalizeTitle (normalizeTitle s) = normalizeTitle s) ∧
    (∀ s t : String, caseFoldWords s = caseFoldWords t →
      generateTitleHash s = generateTitleHash t) ∧
    (∀ s : String,
      lastCharIs (fun c => c == '/' || jsWhitespace c) (normalizeUrl s)
        = false →
      normalizeUrl (normalizeUrl s) = normalizeUrl s) ∧
    (∀ u : String, u.data = trimChars u.data → (∀ c ∈ u.data, c ≠ '?') →
      lastCharIs (fun c => c == '/') u = false →
      normalizeUrl u = u ∧
      generateUrlHash (u ++ "/") = generateUrlHash u ∧
      ∀ q : String, generateUrlHash (u ++ "?" ++ q) = generateUrlHash u) :=
  ⟨normalizeTitle_idem, generateTitleHash_eq_of_caseFoldWords,
   normalizeUrl_idem_of, normalizeUrl_clean⟩

/-- Witness for C3: concrete instances of every hypothesised conjunct. -/
theorem normalization_properties_witness :
    normalizeTitle (normalizeTitle (String.mk
        [' ', 'A', 'c', 'm', 'e', '　', 'C', 'o', 'r', 'p', ' ']))
      = normalizeTitle (String.mk
        [' ', 'A', 'c', 'm', 'e', '　', 'C', 'o', 'r', 'p', ' ']) ∧
    generateTitleHash (String.mk ['A', 'c', 'm', 'e', ' ', ' ', 'C', 'o'])
      = generateTitleHash (String.mk ['a', 'c', 'm', 'e', ' ', 'C', 'O']) ∧
    normalizeUrl (normalizeUrl (String.mk ['x', '?', 'q']))
      = normalizeUrl (String.mk ['x', '?', 'q']) ∧
    generateUrlHash (String.mk ['x', '.', 'c', 'o'] ++ "/")
      = generateUrlHash (String.mk ['x', '.', 'c', 'o']) ∧
    generateUrlHash (String.mk ['x', '.', 'c', 'o'] ++ "?" ++ "r")
      = generateUrlHash (String.mk ['x', '.', 'c', 'o']) := by
  refine ⟨normalization_properties.1 _,
    normalization_properties.2.1 _ _
      (by simp +decide [caseFoldWords, trimChars, wordsWs_cons, wordsWs_nil]),
    normalization_properties.2.2.1 _ (by decide), ?_, ?_⟩
  · exact (normalization_properties.2.2.2 (String.mk ['x', '.', 'c', 'o'])
      (by decide) (by decide) (by decide)).2.1
  · exact (normalization_properties.2.2.2 (String.mk ['x', '.', 'c', 'o'])
      (by decide) (by decide) (by decide)).2.2 "r"

end NewfanFinance
